import Mathlib

/-!
Verification of the Mastersync versioned DAG engine.

This file gives a shallow embedding, in Lean 4, of the core algorithms of the
Mastersync master-master replication engine (files `lib/versioned_collection.js`
and `lib/merge_tree.js`, plus the streaming reader), together with theorems
about the embedded definitions.

JavaScript objects are modelled as ordered association lists
(`List (String × α)`); JS object iteration order for the non-numeric keys
used here (document attribute names, base64 version strings) is insertion
order, which the association-list order reproduces.  `JSON.stringify`-based
comparisons from the source are modelled by comparing the output of a
serialization function `jsonStr`.
-/

namespace Mastersync

/-! ### The JS object model: ordered association lists -/

/-- Lookup in an ordered association list (JS property read: first binding). -/
def assocGet {α : Type} : List (String × α) → String → Option α
  | [], _ => none
  | p :: rest, k => if p.1 == k then some p.2 else assocGet rest k

/-- Key-presence test (JS `hasOwnProperty`). -/
def assocHas {α : Type} : List (String × α) → String → Bool
  | [], _ => false
  | p :: rest, k => p.1 == k || assocHas rest k

/-- Property write: update in place when present (JS keeps the original key
position), append otherwise. -/
def assocSet {α : Type} (d : List (String × α)) (k : String) (v : α) :
    List (String × α) :=
  if assocHas d k then d.map (fun p => if p.1 == k then (k, v) else p)
  else d ++ [(k, v)]

/-- Property removal (JS `delete`). -/
def assocDel {α : Type} (d : List (String × α)) (k : String) :
    List (String × α) :=
  d.filter (fun p => p.1 != k)

/-- Key list in insertion order (JS `Object.keys`). -/
def assocKeys {α : Type} (d : List (String × α)) : List String :=
  d.map Prod.fst

variable {α : Type}

/-! ### JSON values and serialization -/

/-- A JSON-like attribute value, as stored in document bodies. -/
inductive JVal where
  | vStr (s : String)
  | vInt (n : Int)
  | vBool (b : Bool)
  | vNull
  | vArr (xs : List JVal)
  | vObj (fields : List (String × JVal))
deriving Repr

mutual

/-- Deep structural equality of values (models the is-equal deep comparison
used by the merge tree). -/
def jvalBeq : JVal → JVal → Bool
  | .vStr a, .vStr b => a == b
  | .vInt a, .vInt b => a == b
  | .vBool a, .vBool b => a == b
  | .vNull, .vNull => true
  | .vArr xs, .vArr ys => jvalListBeq xs ys
  | .vObj xs, .vObj ys => jvalFieldsBeq xs ys
  | _, _ => false

def jvalListBeq : List JVal → List JVal → Bool
  | [], [] => true
  | x :: xs, y :: ys => jvalBeq x y && jvalListBeq xs ys
  | _, _ => false

def jvalFieldsBeq : List (String × JVal) → List (String × JVal) → Bool
  | [], [] => true
  | (k1, v1) :: xs, (k2, v2) :: ys => k1 == k2 && jvalBeq v1 v2 && jvalFieldsBeq xs ys
  | _, _ => false

end

instance : BEq JVal := ⟨jvalBeq⟩

/-- A JavaScript document body: ordered attribute map. -/
abbrev JsObject := List (String × JVal)

mutual

/-- Models `JSON.stringify` on values.  Only used for (in)equality
comparisons, mirroring the source which compares serialized strings. -/
def jsonStr : JVal → String
  | .vStr s => "\x22" ++ s ++ "\x22"
  | .vInt n => toString n
  | .vBool b => if b then "true" else "false"
  | .vNull => "null"
  | .vArr xs => "[" ++ jsonStrList xs ++ "]"
  | .vObj xs => "\x7b" ++ jsonStrFields xs ++ "\x7d"

def jsonStrList : List JVal → String
  | [] => ""
  | [x] => jsonStr x
  | x :: xs => jsonStr x ++ "," ++ jsonStrList xs

def jsonStrFields : List (String × JVal) → String
  | [] => ""
  | [(k, v)] => "\x22" ++ k ++ "\x22:" ++ jsonStr v
  | (k, v) :: xs => "\x22" ++ k ++ "\x22:" ++ jsonStr v ++ "," ++ jsonStrFields xs

end

/-- Models `JSON.stringify(o[k])`; the token below stands for the undefined
value obtained when the key is absent (`jsonStr` of a present value is
non-empty JSON text and never this bare word). -/
def jsonGetStr (o : JsObject) (k : String) : String :=
  match assocGet o k with
  | some v => jsonStr v
  | none => "undefined"

/-! ### Three-way merge (`VersionedCollection._threeWayMerge`) -/

/-- Delta marker of the per-attribute diff: created, changed or removed.
The source stores the one-character strings "+", "~", "-" and compares them
via their (injective) JSON serializations; we compare the markers directly. -/
inductive Delta where
  | dAdd
  | dChange
  | dDel
deriving DecidableEq, Repr

/-- Diff objects `diffA` / `diffB`: JS objects mapping attribute names to
delta markers. -/
abbrev DiffObj := List (String × Delta)

/-- The copy `mergedItem[keyA] = itemA[keyA]` performed while walking
`keysItemA` in `_threeWayMerge`. -/
def jsCopy (a : JsObject) : JsObject :=
  (assocKeys a).foldl
    (fun m k =>
      match assocGet a k with
      | some v => assocSet m k v
      | none => m) []

/-- Recursion of the first diff phase of `_threeWayMerge` over the processed
key list. -/
def diffPhaseAddGo (item lcaX : JsObject) : List String → DiffObj → DiffObj
  | [], d => d
  | k :: ks, d =>
    diffPhaseAddGo item lcaX ks
      (if assocHas lcaX k then
        if jsonGetStr item k ≠ jsonGetStr lcaX k then assocSet d k .dChange else d
      else assocSet d k .dAdd)

/-- First diff phase of `_threeWayMerge` for one side: walk the item's keys,
record `+` for keys absent from the LCA and `~` for keys whose JSON
serialization differs from the LCA's. -/
def diffPhaseAdd (item lcaX : JsObject) (d : DiffObj) : DiffObj :=
  diffPhaseAddGo item lcaX (assocKeys item) d

/-- Recursion of the second diff phase of `_threeWayMerge` over the processed
key list. -/
def diffPhaseDelGo (item : JsObject) : List String → DiffObj → DiffObj
  | [], d => d
  | k :: ks, d =>
    diffPhaseDelGo item ks (if ¬ assocHas item k then assocSet d k .dDel else d)

/-- Second diff phase of `_threeWayMerge` for one side: walk the LCA's keys
and record `-` for keys absent from the item. -/
def diffPhaseDel (item lcaX : JsObject) (d : DiffObj) : DiffObj :=
  diffPhaseDelGo item (assocKeys lcaX) d

/-- Else-branch of one iteration of the final `_threeWayMerge` loop: apply
the delta of side B or record a conflict. -/
def mergeStepElse (itemA itemB : JsObject) (dAOpt : Option Delta)
    (delta : String) (dB : Delta) (m : JsObject) (c : List String) :
    JsObject × List String :=
  if dB = .dDel then (assocDel m delta, c)
  else if dAOpt = some .dChange ∧ jsonGetStr itemA delta ≠ jsonGetStr itemB delta then
    (m, c ++ [delta])
  else if dAOpt = some .dAdd ∧ jsonGetStr itemA delta ≠ jsonGetStr itemB delta then
    (m, c ++ [delta])
  else if dB = .dAdd ∧ assocHas itemA delta ∧ jsonGetStr itemA delta ≠ jsonGetStr itemB delta then
    (m, c ++ [delta])
  else (assocSet m delta ((assocGet itemB delta).getD .vNull), c)

/-- One iteration of the final `_threeWayMerge` loop at key `delta` with
delta marker `dB` (the value `diffB[delta]`): the two deltas of the sides
disagreeing on the same key is a conflict; otherwise the else-branch applies. -/
def mergeStep (itemA itemB : JsObject) (diffA : DiffObj)
    (delta : String) (dB : Delta) (m : JsObject) (c : List String) :
    JsObject × List String :=
  match assocGet diffA delta with
  | some dA =>
    if dA ≠ dB then (m, c ++ [delta])
    else mergeStepElse itemA itemB (some dA) delta dB m c
  | none => mergeStepElse itemA itemB none delta dB m c

/-- The final loop of `_threeWayMerge` over `Object.keys(diffB)`, threading
the merged item and the conflict list. -/
def mergeLoop (itemA itemB : JsObject) (diffA : DiffObj) :
    DiffObj → JsObject → List String → JsObject × List String
  | [], m, c => (m, c)
  | (delta, dB) :: rest, m, c =>
    let s := mergeStep itemA itemB diffA delta dB m c
    mergeLoop itemA itemB diffA rest s.1 s.2

/-- Shallow embedding of `VersionedCollection._threeWayMerge(itemA, itemB,
lca, lcaB)`.  Returns the conflicting attribute names (left) or the merged
item (right).  Callers strip the `_id` envelope and `_m3` meta object before
calling, so inputs are plain attribute maps. -/
def threeWayMerge (itemA itemB lca : JsObject) (lcaBOpt : Option JsObject) :
    Sum (List String) JsObject :=
  let lcaB := lcaBOpt.getD lca
  let mergedItem := jsCopy itemA
  let diffA := diffPhaseDel itemA lca (diffPhaseAdd itemA lca [])
  let diffB := diffPhaseDel itemB lcaB (diffPhaseAdd itemB lcaB [])
  let conflicts0 := (assocKeys lcaB).filter (fun k => assocGet diffA k = some .dAdd)
  let res := mergeLoop itemA itemB diffA diffB mergedItem conflicts0
  if res.2.length ≠ 0 then Sum.inl res.2 else Sum.inr res.1

/-! ### LCA search (`VersionedCollection._findLCAs` and `_intersect`) -/

/-- The constant-lookup object built from `arr2` in `_intersect`
(`obj2[el] = true`): a string set that keeps first-occurrence order. -/
def buildObj2 (arr2 : List String) : List String :=
  arr2.foldl (fun o el => if o.contains el then o else o ++ [el]) []

/-- The loop of `_intersect` over `arr1`: collect the intersection in `arr1`
order, record whether every element of `arr1` was found, and delete matched
keys from `obj2`. -/
def intersectLoop : List String → List String → List String × Bool × List String
  | [], obj2 => ([], true, obj2)
  | el :: rest, obj2 =>
    if obj2.contains el then
      let r := intersectLoop rest (obj2.erase el)
      (el :: r.1, r.2.1, r.2.2)
    else
      let r := intersectLoop rest obj2
      (r.1, false, r.2.2)

/-- Shallow embedding of `VersionedCollection._intersect(arr1, arr2)`.
First component: elements of `arr1` also in `arr2` (in `arr1` order).
Second component: the `subset` indicator — `none` for `false` (neither is a
subset of the other), `some (-1)` when `arr1` is a subset, `some 1` when
`arr2` is a subset, `some 0` when both sets are equal. -/
def intersect (arr1 arr2 : List String) : List String × Option Int :=
  let r := intersectLoop arr1 (buildObj2 arr2)
  let all1in2 := r.2.1
  let all2in1 := r.2.2.isEmpty
  let count : Int := (if all1in2 then -1 else 0) + (if all2in1 then 1 else 0)
  let subset := if all1in2 || all2in1 then some count else none
  (r.1, subset)

/-- One stream item of the LCA walk: version, perspective and parents
(from `_id._v`, `_id._pe`, `_id._pa`; all items share the document id). -/
structure LcaItem where
  id : String
  v : String
  pe : String
  pa : List String
deriving Repr, DecidableEq

/-- State of the LCA walk: the two open frontiers (version → perspective),
the visited ancestor lists, the collected LCAs and the covered ancestors. -/
structure LcaState where
  headsX : List (String × String)
  headsY : List (String × String)
  ancestorsX : List String
  ancestorsY : List String
  lcas : List String
  cas : List String
deriving Repr, DecidableEq

/-- The per-item body of the `_findLCAs` data handler: update frontier X,
then frontier Y (sequentially, as in the source). -/
def lcaProcessItem (pX pY : String) (it : LcaItem) (st : LcaState) : LcaState :=
  let st :=
    if assocGet st.headsX it.v = some it.pe then
      let headsX := it.pa.foldl (fun h p => assocSet h p pX) (assocDel st.headsX it.v)
      let ancestorsX := it.v :: st.ancestorsX
      let lcas :=
        if it.v ∈ st.ancestorsY ∧ it.v ∉ st.cas then st.lcas ++ [it.v] else st.lcas
      let cas :=
        if it.v ∈ st.ancestorsY then
          it.pa.foldl (fun c p => if c.contains p then c else c ++ [p]) st.cas
        else st.cas
      { st with headsX := headsX, ancestorsX := ancestorsX, lcas := lcas, cas := cas }
    else st
  if assocGet st.headsY it.v = some it.pe then
    let headsY := it.pa.foldl (fun h p => assocSet h p pY) (assocDel st.headsY it.v)
    let ancestorsY := it.v :: st.ancestorsY
    let lcas :=
      if it.v ∈ st.ancestorsX ∧ it.v ∉ st.cas then st.lcas ++ [it.v] else st.lcas
    let cas :=
      if it.v ∈ st.ancestorsX then
        it.pa.foldl (fun c p => if c.contains p then c else c ++ [p]) st.cas
      else st.cas
    { st with headsY := headsY, ancestorsY := ancestorsY, lcas := lcas, cas := cas }
  else st

/-- The finalization condition checked after every stream item: `_intersect`
of the two frontier key sets reports `subset === 0`. -/
def lcaFinalizeNow (st : LcaState) : Bool :=
  (intersect (assocKeys st.headsX) (assocKeys st.headsY)).2 = some (0 : Int)

/-- Finalization of `_findLCAs`: walk the open heads of frontier X, skip
covered ones, require every remaining uncovered head to exist in the
collection for every perspective, and append it to the LCA list. -/
def lcaFinalize (db : List LcaItem) (id : String) (perspectives : List String)
    (cas : List String) : List String → List String → Except String (List String)
  | [], lcas => .ok lcas
  | h :: rest, lcas =>
    if h ∈ cas then lcaFinalize db id perspectives cas rest lcas
    else
      let found := (db.filter
        (fun it => it.id == id && it.v == h && perspectives.contains it.pe)).length
      if found ≠ perspectives.length then
        .error "missing at least one perspective when fetching lca"
      else lcaFinalize db id perspectives cas rest (lcas ++ [h])

/-- The stream loop of `_findLCAs`: process items in combined reverse
insertion order; after each item finalize when `_intersect` reports the two
frontier key sets equal (`subset === 0`); when the stream closes exhausted,
return the collected LCAs. -/
def findLCAsRun (pX pY : String) (db : List LcaItem) (id : String)
    (perspectives : List String) :
    List LcaItem → LcaState → Except String (List String)
  | [], st => .ok st.lcas
  | it :: rest, st =>
    let st2 := lcaProcessItem pX pY it st
    if lcaFinalizeNow st2 then
      lcaFinalize db id perspectives st2.cas (assocKeys st2.headsX) st2.lcas
    else findLCAsRun pX pY db id perspectives rest st2

/-- An input of `_findLCAs`: a version (or a virtual merge without one),
with perspective and parents. -/
structure LcaInput where
  id : String
  v : Option String
  pe : String
  pa : List String
deriving Repr, DecidableEq

/-- Shallow embedding of `VersionedCollection._findLCAs(itemX, itemY)`.
`db` is the snapshot collection for the document id, given in insertion
order; the stream walks it reversed (reverse natural / `_id._i` order),
restricted to the perspectives of the two items. -/
def findLCAs (itemX itemY : LcaInput) (db : List LcaItem) :
    Except String (List String) :=
  if itemX.id ≠ itemY.id then .error "itemX._id._id must equal itemY._id._id"
  else
    let pX := itemX.pe
    let pY := itemY.pe
    let perspectives := if pX = pY then [pX] else [pX, pY]
    let headsX := match itemX.v with
      | some v => [(v, pX)]
      | none => itemX.pa.foldl (fun h p => assocSet h p pX) []
    let headsY := match itemY.v with
      | some v => [(v, pY)]
      | none => itemY.pa.foldl (fun h p => assocSet h p pY) []
    let shortcutLcas :=
      (if perspectives.length = 1 ∧ itemX.pa.length = 1 ∧ itemY.v.isSome ∧
          itemX.pa.headD "" = itemY.v.getD "" then [itemY.v.getD ""] else [])
      ++
      (if perspectives.length = 1 ∧ itemY.pa.length = 1 ∧ itemX.v.isSome ∧
          itemY.pa.headD "" = itemX.v.getD "" then [itemX.v.getD ""] else [])
    if shortcutLcas.length ≠ 0 then .ok shortcutLcas
    else
      let stream := (db.filter
        (fun it => it.id == itemX.id && perspectives.contains it.pe)).reverse
      findLCAsRun pX pY db itemX.id perspectives stream
        ⟨headsX, headsY, [], [], [], []⟩

/-! ### SHA-256 and base64 (the primitives behind `MergeTree.versionContent`) -/

/-- Truncation to a 32-bit word. -/
def w32 (n : Nat) : Nat := n % 4294967296

/-- Right rotation of a 32-bit word. -/
def rotr (n x : Nat) : Nat := w32 ((x >>> n) ||| (x <<< (32 - n)))

def shaCh (x y z : Nat) : Nat := (x &&& y) ^^^ ((x ^^^ 4294967295) &&& z)

def shaMaj (x y z : Nat) : Nat := (x &&& y) ^^^ (x &&& z) ^^^ (y &&& z)

def bigSigma0 (x : Nat) : Nat := rotr 2 x ^^^ rotr 13 x ^^^ rotr 22 x

def bigSigma1 (x : Nat) : Nat := rotr 6 x ^^^ rotr 11 x ^^^ rotr 25 x

def smallSigma0 (x : Nat) : Nat := rotr 7 x ^^^ rotr 18 x ^^^ (x >>> 3)

def smallSigma1 (x : Nat) : Nat := rotr 17 x ^^^ rotr 19 x ^^^ (x >>> 10)

/-- The 64 SHA-256 round constants. -/
def shaK : List Nat := [
  1116352408, 1899447441, 3049323471, 3921009573, 961987163, 1508970993, 2453635748, 2870763221,
  3624381080, 310598401, 607225278, 1426881987, 1925078388, 2162078206, 2614888103, 3248222580,
  3835390401, 4022224774, 264347078, 604807628, 770255983, 1249150122, 1555081692, 1996064986,
  2554220882, 2821834349, 2952996808, 3210313671, 3336571891, 3584528711, 113926993, 338241895,
  666307205, 773529912, 1294757372, 1396182291, 1695183700, 1986661051, 2177026350, 2456956037,
  2730485921, 2820302411, 3259730800, 3345764771, 3516065817, 3600352804, 4094571909, 275423344,
  430227734, 506948616, 659060556, 883997877, 958139571, 1322822218, 1537002063, 1747873779,
  1955562222, 2024104815, 2227730452, 2361852424, 2428436474, 2756734187, 3204031479, 3329325298]

/-- The SHA-256 initial hash value. -/
def shaH0 : List Nat :=
  [1779033703, 3144134277, 1013904242, 2773480762, 1359893119, 2600822924, 528734635, 1541459225]

/-- Big-endian byte encoding of a number in a fixed number of bytes. -/
def toBE (nbytes n : Nat) : List Nat :=
  (List.range nbytes).map (fun i => (n >>> (8 * (nbytes - 1 - i))) % 256)

/-- SHA-256 message padding: append 0x80, zeros, and the 64-bit bit length. -/
def sha256pad (msg : List Nat) : List Nat :=
  let z := (119 - msg.length % 64) % 64
  msg ++ [128] ++ List.replicate z 0 ++ toBE 8 (msg.length * 8)

/-- Split a padded message into 64-byte blocks. -/
def toBlocks (l : List Nat) : List (List Nat) :=
  (List.range (l.length / 64)).map (fun i => (l.drop (64 * i)).take 64)

/-- Read a 32-bit big-endian word from four bytes. -/
def ofBE4 (bs : List Nat) : Nat :=
  bs.foldl (fun acc b => acc * 256 + b) 0

/-- The SHA-256 message schedule of 64 words for a block. -/
def shaSchedule (block : List Nat) : List Nat :=
  let w0 := (List.range 16).map (fun i => ofBE4 ((block.drop (4 * i)).take 4))
  (List.range 48).foldl
    (fun w _ =>
      w ++ [w32 (smallSigma1 (w.getD (w.length - 2) 0) + w.getD (w.length - 7) 0
        + smallSigma0 (w.getD (w.length - 15) 0) + w.getD (w.length - 16) 0)]) w0

/-- One SHA-256 compression round on the state [a,b,c,d,e,f,g,h]. -/
def shaRound (s : List Nat) (kw : Nat × Nat) : List Nat :=
  let a := s.getD 0 0
  let b := s.getD 1 0
  let c := s.getD 2 0
  let d := s.getD 3 0
  let e := s.getD 4 0
  let f := s.getD 5 0
  let g := s.getD 6 0
  let h := s.getD 7 0
  let t1 := w32 (h + bigSigma1 e + shaCh e f g + kw.1 + kw.2)
  let t2 := w32 (bigSigma0 a + shaMaj a b c)
  [w32 (t1 + t2), a, b, c, w32 (d + t1), e, f, g]

/-- SHA-256 compression of one block into the running hash. -/
def shaCompress (h : List Nat) (block : List Nat) : List Nat :=
  let s := (shaK.zip (shaSchedule block)).foldl shaRound h
  List.zipWith (fun x y => w32 (x + y)) h s

/-- SHA-256 of a byte list, as a 32-byte list. -/
def sha256 (msg : List Nat) : List Nat :=
  ((toBlocks (sha256pad msg)).foldl shaCompress shaH0).map (toBE 4) |>.flatten

/-- The base64 alphabet. -/
def base64Chars : List Char :=
  "ABCDEFGHIJKLMNOPQRSTUVWXYZabcdefghijklmnopqrstuvwxyz0123456789+/".toList

def b64c (n : Nat) : String := String.singleton (base64Chars.getD n 'A')

/-- Standard base64 encoding with padding, as produced by
`Buffer.toString('base64')`. -/
def base64encode : List Nat → String
  | [] => ""
  | [a] => b64c (a >>> 2) ++ b64c ((a &&& 3) <<< 4) ++ "=="
  | [a, b] => b64c (a >>> 2) ++ b64c (((a &&& 3) <<< 4) ||| (b >>> 4))
      ++ b64c ((b &&& 15) <<< 2) ++ "="
  | a :: b :: c :: rest =>
    b64c (a >>> 2) ++ b64c (((a &&& 3) <<< 4) ||| (b >>> 4))
      ++ b64c (((b &&& 15) <<< 2) ||| (c >>> 6)) ++ b64c (c &&& 63)
      ++ base64encode rest

/-! ### BSON serialization (as used by `versionContent`) -/

/-- Little-endian 32-bit encoding of an integer (two's complement). -/
def int32LE (n : Int) : List Nat :=
  let m := (n % 4294967296).toNat
  (List.range 4).map (fun i => (m >>> (8 * i)) % 256)

/-- UTF-8 encoding of one character. -/
def utf8Bytes (c : Char) : List Nat :=
  let n := c.toNat
  if n < 128 then [n]
  else if n < 2048 then [192 ||| (n >>> 6), 128 ||| (n &&& 63)]
  else if n < 65536 then
    [224 ||| (n >>> 12), 128 ||| ((n >>> 6) &&& 63), 128 ||| (n &&& 63)]
  else
    [240 ||| (n >>> 18), 128 ||| ((n >>> 12) &&& 63),
     128 ||| ((n >>> 6) &&& 63), 128 ||| (n &&& 63)]

/-- UTF-8 bytes of a string. -/
def strBytes (s : String) : List Nat :=
  s.data.flatMap utf8Bytes

/-- BSON cstring: bytes with a trailing NUL. -/
def bsonCString (s : String) : List Nat := strBytes s ++ [0]

/-- BSON string element value: length-prefixed bytes with trailing NUL. -/
def bsonString (s : String) : List Nat :=
  int32LE ((strBytes s).length + 1) ++ strBytes s ++ [0]

mutual

/-- One BSON element (type byte, name, value). -/
def bsonElem (name : String) : JVal → List Nat
  | .vStr s => [2] ++ bsonCString name ++ bsonString s
  | .vInt n => [16] ++ bsonCString name ++ int32LE n
  | .vBool b => [8] ++ bsonCString name ++ [if b then 1 else 0]
  | .vNull => [10] ++ bsonCString name
  | .vArr xs =>
    let e := bsonArrElems xs 0
    [4] ++ bsonCString name ++ (int32LE (e.length + 5) ++ e ++ [0])
  | .vObj fs =>
    let e := bsonElems fs
    [3] ++ bsonCString name ++ (int32LE (e.length + 5) ++ e ++ [0])
termination_by structural v => v

/-- BSON elements of an embedded document. -/
def bsonElems : List (String × JVal) → List Nat
  | [] => []
  | (k, v) :: rest => bsonElem k v ++ bsonElems rest
termination_by structural l => l

/-- BSON elements of an array document (keys are decimal indices). -/
def bsonArrElems : List JVal → Nat → List Nat
  | [], _ => []
  | x :: rest, i => bsonElem (toString i) x ++ bsonArrElems rest (i + 1)
termination_by structural l => l

end

/-- BSON document framing: total size, elements, trailing NUL. -/
def bsonDocAux (fs : List (String × JVal)) : List Nat :=
  let e := bsonElems fs
  int32LE (e.length + 5) ++ e ++ [0]

/-- BSON serialization of a JS object (`BSON.serialize`). -/
def bsonDoc (fs : JsObject) : List Nat := bsonDocAux fs

/-! ### Merge tree items and content versioning (`merge_tree.js`) -/

/-- A merge-tree item header (`h.id`, `h.v`, `h.pa`, `h.pe`, `h.d`, `h.c`,
`h.i`); the empty string stands for an unset version or perspective and
`i = 0` for an unassigned insertion index. -/
structure MtHeader where
  id : String
  v : String
  pa : List String
  pe : String
  d : Bool
  c : Bool
  i : Nat
deriving Repr, DecidableEq

/-- A merge-tree item: header, meta object and body. -/
structure MtItem where
  h : MtHeader
  m : JsObject
  b : JsObject
deriving Repr

/-- The JS object hashed by `versionContent`: the item with its header,
meta and body fields (unset optional fields absent, as in the source
objects). -/
def mtItemToJson (item : MtItem) : JsObject :=
  [("h", JVal.vObj ([("id", JVal.vStr item.h.id)]
     ++ (if item.h.v ≠ "" then [("v", JVal.vStr item.h.v)] else [])
     ++ [("pa", JVal.vArr (item.h.pa.map JVal.vStr))]
     ++ (if item.h.pe ≠ "" then [("pe", JVal.vStr item.h.pe)] else [])
     ++ (if item.h.d then [("d", JVal.vBool true)] else [])
     ++ (if item.h.c then [("c", JVal.vBool true)] else [])))]
  ++ (if item.m.isEmpty then [] else [("m", JVal.vObj item.m)])
  ++ [("b", JVal.vObj item.b)]

/-- The core of `MergeTree.versionContent(item, vSize)` on the
BSON-serialized JS object `o` of the item: the first `vSize` bytes of the
SHA-256 digest of the serialization, base64 encoded.  When `vSize` is not
supplied (or zero, a JS falsy value), it is derived from `pa0len`, the
base64 length of the item's first parent; a width below one byte is an
error (`none`). -/
def versionContentOf (o : JsObject) (pa0len : Nat) (vSize : Option Nat) :
    Option String :=
  let vsz := match vSize with
    | some n => if n = 0 then pa0len * 6 / 8 else n
    | none => pa0len * 6 / 8
  if vsz < 1 then none
  else some (base64encode ((sha256 (bsonDoc o)).take vsz))

/-- Shallow embedding of `MergeTree.versionContent(item, vSize)` for a tree
item, which carries all header fields. -/
def versionContent (item : MtItem) (vSize : Option Nat) : Option String :=
  versionContentOf (mtItemToJson item) (item.h.pa.headD "").length vSize

/-- The version-assignment step of `MergeTree._mergeTrees` for a genuine
merge: when `dmerge` has no version yet, compute a content-based version
from `smerge` and assign the same version to both perspectives of the
merge. -/
def mergeTreesVersionStep (smerge dmerge : MtItem) : Option (MtItem × MtItem) :=
  if dmerge.h.v = "" then
    (versionContent smerge none).map (fun version =>
      ({ smerge with h := { smerge.h with v := version } },
       { dmerge with h := { dmerge.h with v := version } }))
  else some (smerge, dmerge)

/-! ### Versioned collection items (`versioned_collection.js`) -/

/-- The `_id` envelope of a versioned collection item: `_id._id`, `_id._v`,
`_id._pe`, `_id._pa`, `_id._d`, `_id._lo`, `_id._i` (the empty string is an
unset version; `i = 0` is unassigned). -/
structure VcId where
  id : String
  v : String
  pe : String
  pa : List String
  d : Bool
  lo : Bool
  i : Nat
deriving Repr, DecidableEq

/-- The `_m3` meta object: acknowledged flag, oplog pointer (modelled as a
number) and conflict flag. -/
structure VcM3 where
  ack : Bool
  op : Nat
  c : Bool
deriving Repr, DecidableEq

/-- A versioned collection item (the body holds all document attributes
except the `_id` envelope and `_m3`). -/
structure VcItem where
  id : VcId
  m3 : VcM3
  b : JsObject
deriving Repr

/-- Shallow embedding of `VersionedCollection._generateRandomVersion(size)`:
base64 of `size` (default 6) pseudorandom bytes.  The entropy consumed from
`crypto.pseudoRandomBytes` is an explicit argument `e`. -/
def generateRandomVersion (e : List Nat) (size : Option Nat) : String :=
  base64encode (e.take (size.getD 6))

/-- Shallow embedding of `VersionedCollection._ensureVersion(item)`:
generate a random version if the item has none. -/
def vcEnsureVersion (e : List Nat) (item : VcItem) : VcItem :=
  if item.id.v = "" then
    { item with id := { item.id with v := generateRandomVersion e none } }
  else item

/-! ### Batch ancestry check (`VersionedCollection._checkAncestry`) -/

/-- State threaded by `_checkAncestry`: per-id sub-DAGs, the set of ids with
a new root, and all (possibly rewritten) items in order. -/
structure CAState where
  DAGs : List (String × List VcItem)
  newRoots : List String
  allItems : List VcItem
deriving Repr

/-- One step of `_checkAncestry`: record new roots, reconnect a new root to
a preceding deletion tombstone in the batch (rewriting `h.pa[0]`), or fail
with `root preceded` when the preceding item is not a deletion. -/
def checkAncestryStep (st : CAState) (item : VcItem) : Except String CAState :=
  let dag := (assocGet st.DAGs item.id.id).getD []
  if item.id.pa.isEmpty then
    let newRoots := if st.newRoots.contains item.id.id then st.newRoots
      else st.newRoots ++ [item.id.id]
    match dag.getLast? with
    | some prev =>
      if prev.id.d then
        let item2 := { item with id := { item.id with pa := [prev.id.v] } }
        .ok ⟨assocSet st.DAGs item.id.id (dag ++ [item2]), newRoots,
          st.allItems ++ [item2]⟩
      else .error "root preceded"
    | none =>
      .ok ⟨assocSet st.DAGs item.id.id (dag ++ [item]), newRoots,
        st.allItems ++ [item]⟩
  else
    .ok ⟨assocSet st.DAGs item.id.id (dag ++ [item]), st.newRoots,
      st.allItems ++ [item]⟩

/-- Shallow embedding of `VersionedCollection._checkAncestry(items)`. -/
def checkAncestry (items : List VcItem) : Except String CAState :=
  items.foldlM checkAncestryStep ⟨[], [], []⟩

/-! ### Head enumeration and conflict marking
(`_branchHeads`, `_markConflicts`, `_ensureOneHead`) -/

/-- Shallow embedding of `VersionedCollection._branchHeads(items,
includeDeleted, includeConflicted)`.  `heads` is keyed by version, the
`deleted` tracker by document id; all items belong to one DAG (the id
mismatch typecheck of the source is a precondition here). -/
def branchHeads (items : List VcItem) (includeDeleted : Bool)
    (includeConflicted : Bool) : List VcItem :=
  if items.isEmpty then [] else
  let heads0 : List (String × VcItem) := items.foldl
    (fun h item =>
      if !item.m3.c || includeConflicted then assocSet h item.id.v item else h) []
  let hd := items.foldl
    (fun (hd : List (String × VcItem) × List (String × VcItem)) item =>
      let h := if item.id.d then assocDel hd.1 item.id.v else hd.1
      let del := if item.id.d then assocSet hd.2 item.id.id item else hd.2
      if item.id.pa.isEmpty then (h, assocDel del item.id.id)
      else
        item.id.pa.foldl
          (fun (hd2 : List (String × VcItem) × List (String × VcItem)) p =>
            let h2 := assocDel hd2.1 p
            let del2 := match assocGet hd2.2 item.id.id with
              | some dit => if dit.id.v = p then assocDel hd2.2 item.id.id
                else hd2.2
              | none => hd2.2
            (h2, del2)) (h, del))
    (heads0, [])
  hd.1.map Prod.snd ++ (if includeDeleted then hd.2.map Prod.snd else [])

/-- Shallow embedding of `VersionedCollection._markConflicts(items)`: all
heads must share one DAG and perspective; the first head is left unflagged,
every other head is flagged `_m3._c = true`.  Returns the non-conflicted and
the conflicted heads.  (For an empty input the source calls back without
result arrays and the caller cannot proceed.) -/
def markConflicts (items : List VcItem) : Except String (List VcItem × List VcItem) :=
  match items with
  | [] => .ok ([], [])
  | first :: _ =>
    if items.all (fun it => it.id.pe == first.id.pe && it.id.id == first.id.id)
    then
      let acc := items.foldl
        (fun (acc : List VcItem × List VcItem × Bool) item =>
          if acc.2.2 then (acc.1 ++ [item], acc.2.1, false)
          else (acc.1, acc.2.1 ++ [{ item with m3 := { item.m3 with c := true } }],
            false))
        ([], [], true)
      .ok (acc.1, acc.2.1)
    else .error "provide heads from same DAG and perspective"

/-- Shallow embedding of `VersionedCollection._ensureOneHead(items)`:
enumerate the candidate heads (deleted included, conflicted excluded), mark
all but the first as conflicts, and fail unless exactly one non-conflicted
head remains.  (When no candidate head remains the source crashes on the
missing result of `_markConflicts`; this is modelled as the same
`not exactly one head` failure.) -/
def ensureOneHead (items : List VcItem) : Except String (List VcItem) :=
  if items.isEmpty then .ok [] else
  let newHeads := branchHeads items true false
  match markConflicts newHeads with
  | .error e => .error e
  | .ok (non, _) =>
    if non.length ≠ 1 then .error "not exactly one head" else .ok non

/-! ### Head merging (`VersionedCollection._mergeNewHeads`) -/

/-- Outcome of the recursive merge `newThis._merge(localHead, head, cb)` as
observed by `_mergeNewHeads`: a merge conflict (the error with message
`merge conflict`), another error, a fast-forward or existing item (the
merged local perspective already has a version), or a genuine merge without
a version. -/
inductive MergeOut where
  | conflict
  | err (msg : String)
  | ff (v : String)
  | newMerge (m : VcItem)

/-- Result of one `_mergeNewHeads` iteration: an aborting error, or
continuation with the (possibly rewritten or conflict-flagged) head and the
newly created merge item, if any. -/
inductive MNHStepResult where
  | fail (msg : String)
  | next (head : VcItem) (newItem : Option VcItem)

/-- Shallow embedding of one iteration of
`VersionedCollection._mergeNewHeads` for a head, against the persisted local
head (`findOne` on the local perspective, highest `_id._i`).  The recursive
three-way merge is passed in as `mergeFn`; `e` is the entropy consumed when
a genuine merge is versioned by `_ensureVersion`. -/
def mergeNewHeadsStep (e : List Nat) (newRoots : List String)
    (proceedOnError : Bool) (mergeFn : VcItem → VcItem → MergeOut)
    (localHead : Option VcItem) (head : VcItem) : MNHStepResult :=
  match localHead with
  | none =>
    if newRoots.contains head.id.id ∧ head.id.pa.isEmpty then .next head none
    else .next head none
  | some lh =>
    let head1 :=
      if newRoots.contains head.id.id ∧ head.id.pa.isEmpty ∧ lh.id.d then
        { head with id := { head.id with pa := [lh.id.v] } }
      else head
    if newRoots.contains head1.id.id ∧ head1.id.pa.isEmpty ∧
        lh.id.pa.isEmpty ∧ lh.id.v ≠ head1.id.v then
      if proceedOnError then .next head1 none
      else .fail "different root already in snapshot"
    else if lh.id.v = head1.id.v then .next head1 none
    else if lh.id.d then .next head1 none
    else
      match mergeFn lh head1 with
      | .conflict => .next { head1 with m3 := { head1.m3 with c := true } } none
      | .err msg => .fail msg
      | .ff _ => .next head1 none
      | .newMerge m =>
        let m2 := { m with m3 := ⟨false, 0, false⟩ }
        .next head1 (some (vcEnsureVersion e m2))

/-! ### Oplog item application (`_applyOplogDeleteItem` and friends) -/

/-- An oplog entry as consumed by the apply functions: operator, the id of
`o`, the remaining attributes of `o`, and the timestamp (modelled as a
number). -/
structure OplogItem where
  op : String
  oid : String
  o : JsObject
  ts : Nat
deriving Repr

/-- Shallow embedding of
`VersionedCollection._findLastAckdOrLocallyCreated(id)`: the item of the
local perspective with the highest insertion index among those that are
locally created (`_id._lo`) or acknowledged (`_m3._ack`). -/
def findLastAckdOrLocallyCreated (db : List VcItem) (localPe id : String) :
    Option VcItem :=
  (db.filter (fun it =>
    it.id.id == id && it.id.pe == localPe && (it.id.lo || it.m3.ack))).foldl
    (fun best it => match best with
      | none => some it
      | some bst => if bst.id.i < it.id.i then some it else bst) none

/-- Shallow embedding of `VersionedCollection.versionDoc(doc, keepVersion)`
for a document with id `docId` and attribute object `doc`: shallow-copy the
attributes, attach a fresh `_id` envelope (`_pe` local, `_pa` empty,
`_lo` true) with a random version unless one is kept from the version key,
and drop the version key attribute.  The constant `_co` (collection name)
is not modelled.  The caller sets `_m3`; it defaults here to
`(ack := false, op := 0, c := false)`. -/
def versionDoc (e : List Nat) (localPe versionKey docId : String)
    (doc : JsObject) (keepVersion : Bool) : VcItem :=
  let v := if keepVersion then
      (match assocGet doc versionKey with | some (.vStr s) => s | _ => "")
    else generateRandomVersion e none
  { id := { id := docId, v := v, pe := localPe, pa := [], d := false,
            lo := true, i := 0 },
    m3 := ⟨false, 0, false⟩,
    b := assocDel doc versionKey }

/-- Shallow embedding of
`VersionedCollection._applyOplogDeleteItem(oplogItem)` up to the creation of
the tombstone (the subsequent `_ensureAllInDAG` insertion is outside this
function's contract): find the last acknowledged or locally created item as
parent, fail when none exists, and otherwise build the tombstone child with
the parent document's attributes, `_id._d = true`, the parent version as
single parent, and `_m3` created already acknowledged with the oplog
timestamp. -/
def applyOplogDeleteItem (e : List Nat) (db : List VcItem)
    (localPe versionKey : String) (og : OplogItem) :
    Except String VcItem :=
  if og.op ≠ "d" then .error "oplogItem.op must be d"
  else if og.oid = "" then .error "missing oplogItem.o._id"
  else
    match findLastAckdOrLocallyCreated db localPe og.oid with
    | none => .error "previous version of doc not found"
    | some p =>
      let newObj := versionDoc e localPe versionKey og.oid p.b false
      .ok { newObj with
        id := { newObj.id with pa := [p.id.v], d := true },
        m3 := ⟨true, og.ts, false⟩ }

/-- The new-version construction of `_applyOplogUpdateFullDoc` (and the
insert path) when the oplog document does not match the stored head: the
fresh version is linked to the found parent and its meta starts
unacknowledged (`_m3 = (ack := false, op := ts)`). -/
def applyOplogUpdateNewVersion (e : List Nat) (localPe versionKey : String)
    (og : OplogItem) (item2 : VcItem) : VcItem :=
  let newObj := versionDoc e localPe versionKey og.oid og.o false
  { newObj with
    id := { newObj.id with pa := [item2.id.v] },
    m3 := ⟨false, og.ts, false⟩ }

/-! ### The Tree store backing MergeTree (modelled from the spec) -/

/-- Modelled from the spec: the per-perspective append-only `Tree` store of
`lib/tree.js`, which is not among the sources; §4.B of the spec defines its
operations.  A tree is its item list in insertion order. -/
abbrev MtTree := List MtItem

/-- Modelled from the spec: equivalence of a stored and a written item
(`write` is an idempotent no-op when the (id, version) exists "with
equivalent body and header"); the insertion index is assigned by the tree
and not part of the comparison. -/
def mtItemEquiv (a b : MtItem) : Bool :=
  a.h.id == b.h.id && a.h.v == b.h.v && a.h.pa == b.h.pa && a.h.pe == b.h.pe
    && a.h.d == b.h.d && a.h.c == b.h.c && jvalFieldsBeq a.b b.b

/-- Modelled from the spec: `Tree.write(item)` — idempotent no-op when the
(id, version) exists with equivalent content, an error when it exists with
different content, otherwise append with the next insertion index. -/
def treeWrite (t : MtTree) (it : MtItem) : Except String MtTree :=
  match t.find? (fun x => x.h.id == it.h.id && x.h.v == it.h.v) with
  | some ex =>
    if mtItemEquiv ex it then .ok t
    else .error "tree write: version exists with different content"
  | none => .ok (t ++ [{ it with h := { it.h with i := t.length + 1 } }])

/-- Modelled from the spec: `Tree.getByVersion(v)`. -/
def treeGetByVersion (t : MtTree) (v : String) : Option MtItem :=
  t.find? (fun x => x.h.v == v)

/-- Modelled from the spec: `Tree.getHeads({id, skipDeletes, skipConflicts})`
— items of the id without children, optionally without deleted or
conflicted heads. -/
def treeGetHeads (t : MtTree) (id : String) (skipDeletes skipConflicts : Bool) :
    List MtItem :=
  t.filter (fun x => x.h.id == id
    && !(t.any (fun ch => ch.h.id == id && ch.h.pa.contains x.h.v))
    && (!skipDeletes || !x.h.d) && (!skipConflicts || !x.h.c))

/-- Modelled from the spec: `Tree.del(item)` (used by the stage tree). -/
def treeDel (t : MtTree) (it : MtItem) : MtTree :=
  t.filter (fun x => !(x.h.id == it.h.id && x.h.v == it.h.v))

/-- Modelled from the spec: `Tree.lastByPerspective(pe)` — the version of
the last item whose provenance links to the perspective. -/
def treeLastByPerspective (t : MtTree) (pe : String) : Option String :=
  ((t.filter (fun x => x.h.pe == pe)).getLast?).map (fun x => x.h.v)

/-- Helper of `treeItemsUpTo`: take items until the given version,
inclusive. -/
def treeTakeUpTo (last : String) : List MtItem → List MtItem
  | [] => []
  | x :: rest => if x.h.v == last then [x] else x :: treeTakeUpTo last rest

/-- Modelled from the spec: the slice of
`Tree.iterateInsertionOrder({id, last})` — items of the id in insertion
order up to and including the version `last`. -/
def treeItemsUpTo (t : MtTree) (id : String) (last : String) : List MtItem :=
  treeTakeUpTo last (t.filter (fun x => x.h.id == id))

/-! ### MergeTree local writes and staged merging (`merge_tree.js`) -/

/-- The loop body of the copy in `MergeTree._copyTo(stree, dtree, opts)`,
after the start of the iteration has been positioned: stop before `last`
when it is excluded, write each item, stop after `last` otherwise (the
transform defaults to the identity). -/
def copyToGo (last : Option String) (excludeLast : Bool) :
    List MtItem → MtTree → Except String MtTree
  | [], dtree => .ok dtree
  | it :: rest, dtree =>
    if last = some it.h.v ∧ excludeLast then .ok dtree
    else match treeWrite dtree it with
      | .error e => .error e
      | .ok d2 =>
        if last = some it.h.v then .ok d2
        else copyToGo last excludeLast rest d2

/-- Shallow embedding of `MergeTree._copyTo(stree, dtree, opts)`: copy the
items of `stree` (from `first`, optionally excluded) into `dtree` in
insertion order, up to `last` (optionally excluded). -/
def copyTo (stree dtree : MtTree) (first : Option String) (excludeFirst : Bool)
    (last : Option String) (excludeLast : Bool) : Except String MtTree :=
  let items := match first with
    | some f => stree.dropWhile (fun (it : MtItem) => it.h.v != f)
    | none => stree
  let items := match items with
    | x :: rest => if first = some x.h.v ∧ excludeFirst then rest else x :: rest
    | [] => []
  copyToGo last excludeLast items dtree

/-- State of a MergeTree: the local tree, the stage tree and the remote
perspective trees. -/
structure MTState where
  localTree : MtTree
  stageTree : MtTree
  peTrees : List (String × MtTree)
deriving Repr

/-- An item handed to `createLocalWriteStream`: id, optional version
(confirmations carry the version of a handled merge), deletion flag, meta
and body; local items must not carry parents (`pa` present is an error). -/
structure LocalIn where
  id : String
  v : String
  d : Bool
  m : JsObject
  b : JsObject
  pa : Option (List String)
deriving Repr

/-- The promotion loop of the confirmation path of
`createLocalWriteStream`: for each staged item up to the confirmed version,
copy the source perspective prefix into the local tree, move the item from
stage to local, and delete it from stage. -/
def promoteGo (peTrees : List (String × MtTree)) (confirmV : String) :
    List MtItem → MtTree → MtTree → Except String (MtTree × MtTree)
  | [], ltree, stage => .ok (ltree, stage)
  | sit :: rest, ltree, stage =>
    if sit.h.pe ≠ "" then
      let v := treeLastByPerspective ltree sit.h.pe
      let ptree := (assocGet peTrees sit.h.pe).getD []
      match copyTo ptree ltree v v.isSome (some confirmV) true with
      | .error e => .error e
      | .ok l2 =>
        match treeWrite l2 sit with
        | .error e => .error e
        | .ok l3 => promoteGo peTrees confirmV rest l3 (treeDel stage sit)
    else
      match treeWrite ltree sit with
      | .error e => .error e
      | .ok l2 => promoteGo peTrees confirmV rest l2 (treeDel stage sit)

/-- The JS object hashed when a versionless local write is versioned
(`versionContent(item, vSize)` on the raw input item of the write stream):
its header holds no `pa` key and no version. -/
def localInToJson (input : LocalIn) : JsObject :=
  [("h", JVal.vObj ([("id", JVal.vStr input.id)]
     ++ (if input.d then [("d", JVal.vBool true)] else [])))]
  ++ (if input.m.isEmpty then [] else [("m", JVal.vObj input.m)])
  ++ [("b", JVal.vObj input.b)]

/-- The new-version branch of `createLocalWriteStream`: parent is the
single non-deleted, non-conflicting head of the local tree, the version is
the supplied one or `versionContent` of the raw input item (whose header
has no parent list; the configured `vSize` is always supplied and
positive, so the first-parent default is never consulted). -/
def localWriteNew (vSize : Nat) (st : MTState) (input : LocalIn) :
    Except String MTState :=
  let heads := (treeGetHeads st.localTree input.id true true).map
    (fun x => x.h.v)
  if heads.length > 1 then
    .error "more than one non-deleted and non-conflicting head in local tree"
  else
    let vOpt := if input.v ≠ "" then some input.v
      else versionContentOf (localInToJson input) 0 (some vSize)
    match vOpt with
    | none => .error "version too small"
    | some v =>
      let newItem : MtItem :=
        ⟨⟨input.id, v, heads, "", input.d, false, 0⟩, input.m, input.b⟩
      match treeWrite st.localTree newItem with
      | .error e => .error e
      | .ok l2 => .ok { st with localTree := l2 }

/-- Shallow embedding of one write through
`MergeTree.createLocalWriteStream()`: reject items with parents; when the
version is staged with an equal body, acknowledge it by promoting every
staged item of the id up to and including it into the local tree (copying
the perspective prefixes first); otherwise create a new local version whose
single parent is the current non-deleted, non-conflicting local head and
whose version is the supplied one or a content hash. -/
def localWrite (vSize : Nat) (st : MTState) (input : LocalIn) :
    Except String MTState :=
  if input.pa.isSome then
    .error "did not expect local item to have a parent defined"
  else
    match treeGetByVersion st.stageTree input.v with
    | some ex =>
      if jvalFieldsBeq ex.b input.b then
        match promoteGo st.peTrees ex.h.v
          (treeItemsUpTo st.stageTree ex.h.id ex.h.v)
          st.localTree st.stageTree with
        | .error e => .error e
        | .ok (l2, s2) => .ok { st with localTree := l2, stageTree := s2 }
      else localWriteNew vSize st input
    | none => localWriteNew vSize st input

/-- The merge of a new head against the previous head in stage
(`mergeNewHeadWithStage` in `MergeTree.mergeWithLocal`): the two-stream
`merge` is passed in as `mergeFn`.  Returns the new stage tree and the
`(merged, previousHead)` pairs handed to the merge handler. -/
def mergeNewHeadWithStage (stage : MtTree)
    (mergeFn : MtItem → MtItem → Except (List String) MtItem)
    (newHead : MtItem) (dhead : Option MtItem) :
    Except String (MtTree × List (MtItem × Option MtItem)) :=
  let heads := treeGetHeads stage newHead.h.id true true
  if heads.length > 1 then .error "more than one head in stage"
  else
    match heads with
    | [] => (treeWrite stage newHead).map (fun st2 => (st2, [(newHead, dhead)]))
    | prev :: _ =>
      match mergeFn newHead prev with
      | .error _attrs =>
        let nh2 := { newHead with h := { newHead.h with c := true } }
        (treeWrite stage nh2).map (fun st2 => (st2, []))
      | .ok merged =>
        if merged.h.v ≠ "" ∧ merged.h.v = newHead.h.v then
          (treeWrite stage newHead).map
            (fun st2 => (st2, [(newHead, some prev)]))
        else
          match treeWrite stage newHead with
          | .error e => .error e
          | .ok st2 =>
            match versionContent merged none with
            | none => .error "version too small"
            | some v =>
              let merged2 := { merged with h := { merged.h with v := v } }
              (treeWrite st2 merged2).map
                (fun st3 => (st3, [(merged2, some prev)]))

/-- Shallow embedding of the iterator `MergeTree.mergeWithLocal` passes to
`_mergeTrees` (the transform defaults to the identity): a merge conflict
stores the source head in stage with `h.c` set and does not call the merge
handler; otherwise the new head (the source head on fast-forward, the
source perspective merge otherwise) is merged with the stage head. -/
def mergeWithLocalIter (streeName : String) (stage : MtTree)
    (mergeFn : MtItem → MtItem → Except (List String) MtItem)
    (smerge : Option (Sum (List String) MtItem)) (shead : MtItem)
    (dhead : Option MtItem) :
    Except String (MtTree × List (MtItem × Option MtItem)) :=
  if shead.h.pe ≠ streeName then .error "shead and stree perspective mismatch"
  else
    match smerge with
    | some (.inl _attrs) =>
      let shead2 := { shead with h := { shead.h with c := true } }
      (treeWrite stage shead2).map (fun st2 => (st2, []))
    | some (.inr sm) => mergeNewHeadWithStage stage mergeFn sm dhead
    | none => mergeNewHeadWithStage stage mergeFn shead dhead

/-! ### The streaming reader (`VersionedCollectionReader`) -/

/-- An item of the local-perspective stream consumed by the reader:
version, parents and the document attributes the filter matches against. -/
structure RdItem where
  id : String
  v : String
  pa : List String
  b : JsObject
deriving Repr

/-- Modelled from the spec: the attribute-equality filter predicate of the
reader (the match-object module is not among the sources; the spec calls it
an "attribute-equality predicate"). -/
def matchFilter (filter : JsObject) (item : RdItem) : Bool :=
  filter.all (fun p => match assocGet item.b p.1 with
    | some v => jvalBeq v p.2
    | none => false)

/-- One closure step when collecting the ancestor set of a version:
add the parents of every member. -/
def ancIter (tree : List RdItem) : Nat → List String → List String
  | 0, acc => acc
  | n + 1, acc =>
    ancIter tree n (tree.foldl
      (fun a it =>
        if a.contains it.v then
          it.pa.foldl (fun a2 q => if a2.contains q then a2 else a2 ++ [q]) a
        else a) acc)

/-- The versions on the branch of `p`: `p` and all its ancestors. -/
def branchAncestors (tree : List RdItem) (p : String) : List String :=
  ancIter tree tree.length [p]

/-- Modelled from the spec: `walkBranch` as used by the reader — walk back
along the branch of parent `p` (its items in reverse insertion order) and
stop at the first item satisfying the filter; the reader uses it as the
surrogate parent ("walk back along that parent branch until a
filter-matching ancestor is found"). -/
def walkBranchLastMatch (tree : List RdItem) (filter : JsObject) (p : String) :
    Option String :=
  ((tree.reverse.filter
    (fun it => (branchAncestors tree p).contains it.v)).find?
    (fun it => matchFilter filter it)).map (fun it => it.v)

/-- State of the reader: the `heads` map from versions to the parent lists
to report, the emitted items `(version, rewritten parents)`, and the offset
bookkeeping. -/
structure RdState where
  heads : List (String × List String)
  emitted : List (String × List String)
  offsetReached : Bool
  tries : Nat
deriving Repr

/-- Shallow embedding of the `handleData` body of
`VersionedCollectionReader`: track the offset; merge or walk the parent
entries of the `heads` map; drop items failing the filter or the hooks
(keeping their surrogate bookkeeping); rewrite `h.pa` of emitted items to
the recorded head list. -/
def handleData (tree : List RdItem) (filter : JsObject)
    (hook : RdItem → Option RdItem) (offset : String) (maxTries : Nat)
    (st : RdState) (item : RdItem) : Except String RdState :=
  let off : Except String (Bool × Nat) :=
    if st.offsetReached then .ok (true, st.tries)
    else if item.v = offset then .ok (true, st.tries)
    else if st.tries + 1 ≥ maxTries then .error "offset not found"
    else .ok (false, st.tries + 1)
  match off with
  | .error e => .error e
  | .ok (offsetReached, tries) =>
    let heads := assocSet st.heads item.v []
    let heads := item.pa.foldl
      (fun hs p =>
        match assocGet hs p with
        | some entry =>
          assocDel (assocSet hs item.v ((assocGet hs item.v).getD [] ++ entry)) p
        | none =>
          match walkBranchLastMatch tree filter p with
          | some anc =>
            if ((assocGet hs item.v).getD []).contains anc then hs
            else assocSet hs item.v ((assocGet hs item.v).getD [] ++ [anc])
          | none => hs) heads
    if ¬ matchFilter filter item then
      .ok { st with heads := heads, offsetReached := offsetReached, tries := tries }
    else
      match hook item with
      | none =>
        .ok { st with heads := heads, offsetReached := offsetReached, tries := tries }
      | some _afterItem =>
        let emittedPa := (assocGet heads item.v).getD []
        let heads := assocSet heads item.v [item.v]
        let emitted := if offsetReached then st.emitted ++ [(item.v, emittedPa)]
          else st.emitted
        .ok ⟨heads, emitted, offsetReached, tries⟩

/-- The reader loop over the local-perspective stream in insertion order. -/
def readerRun (tree : List RdItem) (filter : JsObject)
    (hook : RdItem → Option RdItem) (offset : String) (maxTries : Nat) :
    List RdItem → RdState → Except String RdState
  | [], st => .ok st
  | it :: rest, st =>
    match handleData tree filter hook offset maxTries st it with
    | .error e => .error e
    | .ok st2 => readerRun tree filter hook offset maxTries rest st2

/-- A bounded (non-tailing) run of the reader over a snapshot: emits the
filter-matching, hook-passing items with their parent lists rewritten to
the surrogate-ancestor projection. -/
def readerEmit (tree : List RdItem) (filter : JsObject)
    (hook : RdItem → Option RdItem) (offset : Option String) :
    Except String (List (String × List String)) :=
  (readerRun tree filter hook (offset.getD "") tree.length tree
    ⟨[], [], offset.isNone, 0⟩).map (fun st => st.emitted)

/-- A version of a filter-matching item of the stream (the property every
version named by the reader's bookkeeping satisfies). -/
def rdMatchingVersion (tree : List RdItem) (filter : JsObject)
    (w : String) : Prop :=
  ∃ it, it ∈ tree ∧ it.v = w ∧ matchFilter filter it = true

/-- Every version in every entry of the reader's `heads` map is the version
of a filter-matching item. -/
def rdEntriesOk (tree : List RdItem) (filter : JsObject)
    (hs : List (String × List String)) : Prop :=
  ∀ p ∈ hs, ∀ w ∈ p.2, rdMatchingVersion tree filter w

/-- Every emitted version is a filter-matching, hook-passing item of the
stream and every emitted parent is the version of a filter-matching
item. -/
def rdEmittedOk (tree : List RdItem) (filter : JsObject)
    (hook : RdItem → Option RdItem)
    (em : List (String × List String)) : Prop :=
  ∀ p ∈ em,
    (∃ it, it ∈ tree ∧ it.v = p.1 ∧ matchFilter filter it = true
      ∧ (hook it).isSome = true) ∧
    ∀ w ∈ p.2, rdMatchingVersion tree filter w

/-! ### Concrete instances used by witnesses and counterexamples -/

/-- A persisted, acknowledged local head (version `L`). -/
def c1lh : VcItem :=
  ⟨⟨"doc", "L", "_local", ["A"], false, false, 5⟩, ⟨true, 0, false⟩, []⟩

/-- A new head (version `H`) to merge against `c1lh`. -/
def c1hd : VcItem :=
  ⟨⟨"doc", "H", "_local", ["A"], false, false, 0⟩, ⟨false, 0, false⟩, []⟩

/-- The versionless item produced by the recursive merge of `c1lh` and
`c1hd`. -/
def c1m0 : VcItem :=
  ⟨⟨"doc", "", "_local", ["L", "H"], false, false, 0⟩, ⟨false, 0, false⟩, []⟩

/-- A recursive-merge outcome standing for a genuine merge of two items. -/
def c1mf : VcItem → VcItem → MergeOut := fun _ _ => .newMerge c1m0

/-- A source-perspective merge item whose first parent is eight base64
characters wide, so the derived version size is six bytes. -/
def c1s : MtItem :=
  ⟨⟨"doc", "", ["12345678"], "", false, false, 0⟩, [], [("a", JVal.vStr "b")]⟩

/-- The destination-perspective merge item, still without a version. -/
def c1dm : MtItem :=
  ⟨⟨"doc", "", ["12345678"], "peer", false, false, 0⟩, [], []⟩

/-- The content version of `c1s`. -/
def c1v : String := base64encode ((sha256 (bsonDoc (mtItemToJson c1s))).take 6)

/-- A persisted, acknowledged local head for the conflict scenario. -/
def c6lh : VcItem :=
  ⟨⟨"doc", "L", "_local", ["A"], false, false, 5⟩, ⟨true, 0, false⟩, []⟩

/-- The conflicting new head of the conflict scenario. -/
def c6hd : VcItem :=
  ⟨⟨"doc", "H", "_local", ["A"], false, false, 0⟩, ⟨false, 0, false⟩, []⟩

/-- A source head handed to the `mergeWithLocal` iterator. -/
def c6sh : MtItem := ⟨⟨"doc", "S", ["V"], "r", false, false, 0⟩, [], []⟩

/-- The stage tree after `c6sh` is stored conflicted. -/
def c6st2 : MtTree := [⟨⟨"doc", "S", ["V"], "r", false, true, 1⟩, [], []⟩]

/-- A root item of the ancestry-check scenarios. -/
def c7rootA : VcItem :=
  ⟨⟨"doc", "A", "I", [], false, false, 0⟩, ⟨false, 0, false⟩, []⟩

/-- A deletion tombstone following `c7rootA` in the batch. -/
def c7delB : VcItem :=
  ⟨⟨"doc", "B", "I", ["A"], true, false, 0⟩, ⟨false, 0, false⟩, []⟩

/-- A new root arriving after a preceding item of the same id. -/
def c7rootC : VcItem :=
  ⟨⟨"doc", "C", "I", [], false, false, 0⟩, ⟨false, 0, false⟩, []⟩

/-- An ancestry-check state whose preceding item for `doc` is the
tombstone `c7delB`. -/
def c7stD : CAState := ⟨[("doc", [c7delB])], [], []⟩

/-- An ancestry-check state whose preceding item for `doc` is the
non-deleted `c7rootA`. -/
def c7stN : CAState := ⟨[("doc", [c7rootA])], [], []⟩

/-- A persisted local head that is a deletion tombstone (version `B`). -/
def c7lh : VcItem :=
  ⟨⟨"doc", "B", "_local", ["A"], true, false, 1⟩, ⟨true, 0, false⟩, []⟩

/-- The root of the multiple-heads scenario (arrival index 1). -/
def c8iA : VcItem :=
  ⟨⟨"doc", "A", "I", [], false, false, 1⟩, ⟨false, 0, false⟩, []⟩

/-- A deleted candidate head arriving second (arrival index 2). -/
def c8iC : VcItem :=
  ⟨⟨"doc", "C", "I", ["A"], true, false, 2⟩, ⟨false, 0, false⟩, []⟩

/-- A non-deleted candidate head arriving third (arrival index 3). -/
def c8iB : VcItem :=
  ⟨⟨"doc", "B", "I", ["A"], false, false, 3⟩, ⟨false, 0, false⟩, []⟩

/-- A previously acknowledged local item serving as the delete parent. -/
def c10p : VcItem :=
  ⟨⟨"doc", "L", "_local", ["A"], false, false, 5⟩, ⟨true, 0, false⟩, []⟩

/-- An oplog delete entry for `doc` at timestamp 42. -/
def c10og : OplogItem := ⟨"d", "doc", [], 42⟩

/-- The first staged item (version `V1`) of the confirmation scenario. -/
def c5s1 : MtItem := ⟨⟨"doc", "V1", [], "r", false, false, 1⟩, [], []⟩

/-- The second staged item (version `V2`, child of `V1`). -/
def c5s2 : MtItem := ⟨⟨"doc", "V2", ["V1"], "r", false, false, 2⟩, [], []⟩

/-- A merge tree with an empty local tree and both items staged from the
remote perspective `r`. -/
def c5st0 : MTState := ⟨[], [c5s1, c5s2], [("r", [c5s1, c5s2])]⟩

/-- A local write confirming the staged version `V2` while `V1` is still
unconfirmed. -/
def c5in : LocalIn := ⟨"doc", "V2", false, [], [], none⟩

/-- A document body matched by the reader filter of the C3 scenario. -/
def qux : JsObject := [("baz", JVal.vStr "qux")]

/-- A document body matched only by the alternative filter. -/
def mux : JsObject := [("baz", JVal.vStr "mux")]

/-- A document body matched by no filter of the scenario. -/
def oth : JsObject := [("baz", JVal.vStr "zzz")]

/-- The local-perspective DAG A{}, B{A}, C{B}, D{C}, E{B}, F{E,C}, G{F} in
insertion order, with bodies chosen so a filter matches exactly A, D, G. -/
def rdTree : List RdItem := [⟨"doc", "A", [], qux⟩, ⟨"doc", "B", ["A"], oth⟩,
  ⟨"doc", "C", ["B"], mux⟩, ⟨"doc", "D", ["C"], qux⟩, ⟨"doc", "E", ["B"], oth⟩,
  ⟨"doc", "F", ["E", "C"], oth⟩, ⟨"doc", "G", ["F"], qux⟩]

/-- A diamond DAG A{}, B{A}, C{A}, M{B,C} whose filter matches only A and
M: both parent branches of M walk back to the same surrogate ancestor A. -/
def c3dupTree : List RdItem := [⟨"doc", "A", [], qux⟩, ⟨"doc", "B", ["A"], oth⟩,
  ⟨"doc", "C", ["A"], oth⟩, ⟨"doc", "M", ["B", "C"], qux⟩]

theorem assocHas_iff_mem_keys (d : List (String × α)) (k : String) :
    assocHas d k = true ↔ k ∈ assocKeys d := by
  induction d with
  | nil => simp [assocHas, assocKeys]
  | cons p rest ih =>
    simp only [assocHas, assocKeys, List.map_cons, List.mem_cons,
      Bool.or_eq_true, beq_iff_eq] at *
    tauto

theorem assocHas_eq_false_iff (d : List (String × α)) (k : String) :
    assocHas d k = false ↔ k ∉ assocKeys d := by
  rw [← assocHas_iff_mem_keys]
  constructor
  · intro h hc; rw [h] at hc; exact Bool.false_ne_true hc
  · intro h; exact Bool.eq_false_iff.mpr (fun hc => h hc)

theorem assocGet_eq_none_of_not_has (d : List (String × α)) (k : String)
    (h : assocHas d k = false) : assocGet d k = none := by
  induction d with
  | nil => rfl
  | cons p rest ih =>
    simp only [assocHas, Bool.or_eq_false_iff] at h
    simp only [assocGet, h.1, if_false]
    exact ih h.2

theorem assocGet_some_mem (d : List (String × α)) (k : String) (v : α)
    (h : assocGet d k = some v) : (k, v) ∈ d := by
  induction d with
  | nil => simp [assocGet] at h
  | cons p rest ih =>
    by_cases hp : p.1 = k
    · simp only [assocGet, hp, beq_self_eq_true, if_true,
        Option.some_inj] at h
      have : p = (k, v) := by
        rcases p with ⟨a, b⟩
        simp only at hp h
        simp [hp, h]
      simp [this]
    · simp only [assocGet, show (p.1 == k) = false by simpa using hp,
        if_false] at h
      exact List.mem_cons_of_mem _ (ih h)

theorem assocGet_mapUpd_ne (d : List (String × α)) (j k : String) (v : α)
    (h : j ≠ k) :
    assocGet (d.map (fun p => if p.1 == j then (j, v) else p)) k
      = assocGet d k := by
  induction d with
  | nil => rfl
  | cons p rest ih =>
    by_cases hp : p.1 = j
    · simp only [List.map_cons, assocGet, hp,
        show (j == k) = false by simpa using h]
      rw [if_neg (by simpa using h)]
      simpa using ih
    · by_cases hk : p.1 = k
      · simp [List.map_cons, assocGet, hk,
        show (k == j) = false by simpa using (Ne.symm h)]
      · simp only [List.map_cons, assocGet,
          show (p.1 == j) = false by simpa using hp,
          show (p.1 == k) = false by simpa using hk]
        rw [if_neg (by simpa using hk)]
        simpa using ih

theorem assocGet_append_single_ne (d : List (String × α)) (j k : String)
    (v : α) (h : j ≠ k) :
    assocGet (d ++ [(j, v)]) k = assocGet d k := by
  induction d with
  | nil => simp [assocGet, show (j == k) = false by simpa using h]
  | cons p rest ih =>
    by_cases hk : p.1 = k
    · simp [assocGet, hk]
    · simp [assocGet, show (p.1 == k) = false by simpa using hk, ih]

theorem assocGet_set_ne (d : List (String × α)) (j k : String) (v : α)
    (h : j ≠ k) : assocGet (assocSet d j v) k = assocGet d k := by
  unfold assocSet
  by_cases hj : assocHas d j
  · rw [if_pos hj]; exact assocGet_mapUpd_ne d j k v h
  · rw [if_neg hj]; exact assocGet_append_single_ne d j k v h

theorem assocGet_mapUpd_self (d : List (String × α)) (k : String) (v : α)
    (hk : assocHas d k = true) :
    assocGet (d.map (fun p => if p.1 == k then (k, v) else p)) k = some v := by
  induction d with
  | nil => simp [assocHas] at hk
  | cons p rest ih =>
    by_cases hp : p.1 = k
    · simp [assocGet, hp]
    · simp only [assocHas, show (p.1 == k) = false by simpa using hp,
        Bool.false_or] at hk
      simp only [List.map_cons, assocGet,
        show (p.1 == k) = false by simpa using hp]
      rw [if_neg (by simpa using hp)]
      simpa using ih hk

theorem assocGet_append_single_self (d : List (String × α)) (k : String)
    (v : α) (hk : assocHas d k = false) :
    assocGet (d ++ [(k, v)]) k = some v := by
  induction d with
  | nil => simp [assocGet]
  | cons p rest ih =>
    simp only [assocHas, Bool.or_eq_false_iff] at hk
    simp only [List.cons_append, assocGet, hk.1, if_false]
    exact ih hk.2

theorem assocGet_set_self (d : List (String × α)) (k : String) (v : α) :
    assocGet (assocSet d k v) k = some v := by
  unfold assocSet
  by_cases hk : assocHas d k
  · rw [if_pos hk]; exact assocGet_mapUpd_self d k v hk
  · rw [if_neg hk]
    exact assocGet_append_single_self d k v (Bool.eq_false_iff.mpr hk)

theorem assocKeys_mapUpd (d : List (String × α)) (k : String) (v : α) :
    assocKeys (d.map (fun p => if p.1 == k then (k, v) else p))
      = assocKeys d := by
  simp only [assocKeys, List.map_map]
  apply List.map_congr_left
  intro p _
  by_cases hp : p.1 = k <;> simp [Function.comp, hp]

theorem assocHas_keys_eq (d d2 : List (String × α))
    (h : assocKeys d = assocKeys d2) (k : String) :
    assocHas d k = assocHas d2 k := by
  by_cases hk : assocHas d k
  · rw [hk]
    rw [assocHas_iff_mem_keys] at hk
    rw [h] at hk
    exact ((assocHas_iff_mem_keys d2 k).mpr hk).symm
  · rw [Bool.eq_false_iff.mpr hk]
    rw [Bool.not_eq_true, assocHas_eq_false_iff, h,
      ← assocHas_eq_false_iff] at hk
    exact hk.symm

theorem assocHas_set_ne (d : List (String × α)) (j k : String) (v : α)
    (h : j ≠ k) : assocHas (assocSet d j v) k = assocHas d k := by
  unfold assocSet
  by_cases hj : assocHas d j
  · rw [if_pos hj]
    exact assocHas_keys_eq _ d (assocKeys_mapUpd d j v) k
  · rw [if_neg hj]
    induction d with
    | nil => simp [assocHas, show (j == k) = false by simpa using h]
    | cons p rest ih =>
      simp only [assocHas, Bool.or_eq_true] at hj
      push_neg at hj
      rcases hj with ⟨h1, h2⟩
      simp [assocHas, ih h2]

theorem assocHas_set_self (d : List (String × α)) (k : String) (v : α) :
    assocHas (assocSet d k v) k = true := by
  unfold assocSet
  by_cases hk : assocHas d k
  · rw [if_pos hk]
    rw [assocHas_keys_eq _ d (assocKeys_mapUpd d k v) k]
    exact hk
  · rw [if_neg hk]
    rw [assocHas_iff_mem_keys]
    simp [assocKeys]

theorem assocHas_del_ne (d : List (String × α)) (j k : String) (h : j ≠ k) :
    assocHas (assocDel d j) k = assocHas d k := by
  induction d with
  | nil => rfl
  | cons p rest ih =>
    by_cases hp : p.1 = j
    · rw [show assocDel (p :: rest) j = assocDel rest j by
        simp [assocDel, List.filter_cons, hp]]
      simp only [assocHas, show (p.1 == k) = false by simp [hp]; exact h,
        Bool.false_or]
      exact ih
    · rw [show assocDel (p :: rest) j = p :: assocDel rest j by
        simp [assocDel, List.filter_cons, hp]]
      simp only [assocHas]
      rw [ih]

theorem assocHas_del_self (d : List (String × α)) (k : String) :
    assocHas (assocDel d k) k = false := by
  induction d with
  | nil => rfl
  | cons p rest ih =>
    by_cases hp : p.1 = k
    · rw [show assocDel (p :: rest) k = assocDel rest k by
        simp [assocDel, List.filter_cons, hp]]
      exact ih
    · rw [show assocDel (p :: rest) k = p :: assocDel rest k by
        simp [assocDel, List.filter_cons, hp]]
      simp only [assocHas, show (p.1 == k) = false by simpa using hp,
        Bool.false_or]
      exact ih

theorem assocKeys_set_nodup (d : List (String × α)) (k : String) (v : α)
    (h : (assocKeys d).Nodup) : (assocKeys (assocSet d k v)).Nodup := by
  unfold assocSet
  by_cases hk : assocHas d k
  · rw [if_pos hk, assocKeys_mapUpd d k v]; exact h
  · rw [if_neg hk]
    simp only [assocKeys, List.map_append]
    rw [List.nodup_append]
    refine ⟨h, by simp, ?_⟩
    simp only [List.map_cons, List.map_nil]
    intro x hx
    simp only [List.mem_singleton]
    intro hxk
    have hk2 : assocHas d k = false := Bool.eq_false_iff.mpr hk
    rw [assocHas_eq_false_iff] at hk2
    exact hk2 (hxk ▸ hx)

theorem assocGet_eq_none_iff (d : List (String × α)) (k : String) :
    assocGet d k = none ↔ k ∉ assocKeys d := by
  constructor
  · intro h hc
    rw [← assocHas_iff_mem_keys] at hc
    induction d with
    | nil => simp [assocHas] at hc
    | cons p rest ih =>
      simp only [assocGet] at h
      by_cases hp : p.1 = k
      · rw [if_pos (by simpa using hp)] at h; exact Option.some_ne_none _ h
      · rw [if_neg (by simpa using hp)] at h
        simp only [assocHas, show (p.1 == k) = false by simpa using hp,
          Bool.false_or] at hc
        exact ih h hc
  · intro h
    exact assocGet_eq_none_of_not_has d k ((assocHas_eq_false_iff d k).mpr h)

/-! ### Lemmas about the diff phases and merge loop -/

theorem mem_keys_of_mem {α : Type} {d : List (String × α)} {k : String}
    {v : α} (h : (k, v) ∈ d) : k ∈ assocKeys d := by
  simp only [assocKeys, List.mem_map]
  exact ⟨(k, v), h, rfl⟩

theorem diffPhaseAddGo_get_not_mem (item lcaX : JsObject) (k : String) :
    ∀ (ks : List String) (d : DiffObj), k ∉ ks →
    assocGet (diffPhaseAddGo item lcaX ks d) k = assocGet d k := by
  intro ks
  induction ks with
  | nil => intro d _; rfl
  | cons j rest ih =>
    intro d hk
    have hkj : j ≠ k := fun he => hk (he ▸ List.mem_cons_self j rest)
    have hkr : k ∉ rest := fun hm => hk (List.mem_cons_of_mem _ hm)
    simp only [diffPhaseAddGo]
    rw [ih _ hkr]
    by_cases h1 : assocHas lcaX j
    · by_cases h2 : jsonGetStr item j ≠ jsonGetStr lcaX j
      · simp only [h1, if_true, if_pos h2]
        exact assocGet_set_ne d j k _ hkj
      · simp [h1, h2]
    · simp only [h1, if_false, Bool.false_eq_true]
      exact assocGet_set_ne d j k _ hkj

theorem diffPhaseAddGo_get_unchanged (item lcaX : JsObject) (k : String)
    (h1 : assocHas lcaX k = true)
    (h2 : jsonGetStr item k = jsonGetStr lcaX k) :
    ∀ (ks : List String) (d : DiffObj),
    assocGet (diffPhaseAddGo item lcaX ks d) k = assocGet d k := by
  intro ks
  induction ks with
  | nil => intro d; rfl
  | cons j rest ih =>
    intro d
    simp only [diffPhaseAddGo]
    rw [ih]
    by_cases hj : j = k
    · subst hj
      simp [h1, h2]
    · by_cases hl : assocHas lcaX j
      · by_cases hc : jsonGetStr item j ≠ jsonGetStr lcaX j
        · simp only [hl, if_true, if_pos hc]
          exact assocGet_set_ne d j k _ hj
        · simp [hl, hc]
      · simp only [hl, if_false, Bool.false_eq_true]
        exact assocGet_set_ne d j k _ hj

theorem diffPhaseAddGo_get_change (item lcaX : JsObject) (k : String)
    (h1 : assocHas lcaX k = true)
    (h2 : jsonGetStr item k ≠ jsonGetStr lcaX k) :
    ∀ (ks : List String) (d : DiffObj), ks.Nodup → k ∈ ks →
    assocGet (diffPhaseAddGo item lcaX ks d) k = some Delta.dChange := by
  intro ks
  induction ks with
  | nil => intro d _ hm; simp at hm
  | cons j rest ih =>
    intro d hnd hm
    simp only [diffPhaseAddGo]
    by_cases hj : j = k
    · have hkr : k ∉ rest := hj ▸ (List.nodup_cons.mp hnd).1
      rw [hj]
      rw [diffPhaseAddGo_get_not_mem item lcaX k rest _ hkr]
      simp only [h1, if_true, if_pos h2]
      exact assocGet_set_self d k _
    · have hm2 : k ∈ rest := by
        rcases List.mem_cons.mp hm with h | h
        · exact absurd h.symm hj
        · exact h
      exact ih _ (List.nodup_cons.mp hnd).2 hm2

theorem diffPhaseDelGo_get_not_mem (item : JsObject) (k : String) :
    ∀ (ks : List String) (d : DiffObj), k ∉ ks →
    assocGet (diffPhaseDelGo item ks d) k = assocGet d k := by
  intro ks
  induction ks with
  | nil => intro d _; rfl
  | cons j rest ih =>
    intro d hk
    have hkj : j ≠ k := fun he => hk (he ▸ List.mem_cons_self j rest)
    have hkr : k ∉ rest := fun hm => hk (List.mem_cons_of_mem _ hm)
    simp only [diffPhaseDelGo]
    rw [ih _ hkr]
    by_cases h1 : assocHas item j
    · simp [h1]
    · simp only [h1, Bool.false_eq_true, not_false_iff, if_true]
      exact assocGet_set_ne d j k _ hkj

theorem diffPhaseDelGo_get_has (item : JsObject) (k : String)
    (h1 : assocHas item k = true) :
    ∀ (ks : List String) (d : DiffObj),
    assocGet (diffPhaseDelGo item ks d) k = assocGet d k := by
  intro ks
  induction ks with
  | nil => intro d; rfl
  | cons j rest ih =>
    intro d
    simp only [diffPhaseDelGo]
    rw [ih]
    by_cases hj : j = k
    · subst hj; simp [h1]
    · by_cases hi : assocHas item j
      · simp [hi]
      · simp only [hi, Bool.false_eq_true, not_false_iff, if_true]
        exact assocGet_set_ne d j k _ hj

theorem diffPhaseDelGo_get_del (item : JsObject) (k : String)
    (h1 : assocHas item k = false) :
    ∀ (ks : List String) (d : DiffObj), ks.Nodup → k ∈ ks →
    assocGet (diffPhaseDelGo item ks d) k = some Delta.dDel := by
  intro ks
  induction ks with
  | nil => intro d _ hm; simp at hm
  | cons j rest ih =>
    intro d hnd hm
    simp only [diffPhaseDelGo]
    by_cases hj : j = k
    · have hkr : k ∉ rest := hj ▸ (List.nodup_cons.mp hnd).1
      rw [hj]
      rw [diffPhaseDelGo_get_not_mem item k rest _ hkr]
      simp only [h1, Bool.false_eq_true, not_false_iff, if_true]
      exact assocGet_set_self d k _
    · have hm2 : k ∈ rest := by
        rcases List.mem_cons.mp hm with h | h
        · exact absurd h.symm hj
        · exact h
      exact ih _ (List.nodup_cons.mp hnd).2 hm2

theorem diffPhaseAddGo_keys_nodup (item lcaX : JsObject) :
    ∀ (ks : List String) (d : DiffObj), (assocKeys d).Nodup →
    (assocKeys (diffPhaseAddGo item lcaX ks d)).Nodup := by
  intro ks
  induction ks with
  | nil => intro d h; exact h
  | cons j rest ih =>
    intro d h
    simp only [diffPhaseAddGo]
    apply ih
    by_cases h1 : assocHas lcaX j
    · by_cases h2 : jsonGetStr item j ≠ jsonGetStr lcaX j
      · simp only [h1, if_true, if_pos h2]
        exact assocKeys_set_nodup d j _ h
      · simpa [h1, h2] using h
    · simp only [h1, Bool.false_eq_true, if_false]
      exact assocKeys_set_nodup d j _ h

theorem diffPhaseDelGo_keys_nodup (item : JsObject) :
    ∀ (ks : List String) (d : DiffObj), (assocKeys d).Nodup →
    (assocKeys (diffPhaseDelGo item ks d)).Nodup := by
  intro ks
  induction ks with
  | nil => intro d h; exact h
  | cons j rest ih =>
    intro d h
    simp only [diffPhaseDelGo]
    apply ih
    by_cases h1 : assocHas item j
    · simpa [h1] using h
    · simp only [h1, Bool.false_eq_true, not_false_iff, if_true]
      exact assocKeys_set_nodup d j _ h

theorem mergeStepElse_conflicts_cases (itemA itemB : JsObject)
    (dAOpt : Option Delta) (delta : String) (dB : Delta) (m : JsObject)
    (c : List String) :
    (mergeStepElse itemA itemB dAOpt delta dB m c).2 = c ∨
    (mergeStepElse itemA itemB dAOpt delta dB m c).2 = c ++ [delta] := by
  unfold mergeStepElse
  split_ifs <;> simp

theorem mergeStep_conflicts_cases (itemA itemB : JsObject) (diffA : DiffObj)
    (delta : String) (dB : Delta) (m : JsObject) (c : List String) :
    (mergeStep itemA itemB diffA delta dB m c).2 = c ∨
    (mergeStep itemA itemB diffA delta dB m c).2 = c ++ [delta] := by
  unfold mergeStep
  cases h : assocGet diffA delta with
  | none => exact mergeStepElse_conflicts_cases itemA itemB none delta dB m c
  | some dA =>
    dsimp only
    by_cases hd : dA ≠ dB
    · rw [if_pos hd]; simp
    · rw [if_neg hd]
      exact mergeStepElse_conflicts_cases itemA itemB (some dA) delta dB m c

theorem mergeStep_conflicts_mono (itemA itemB : JsObject) (diffA : DiffObj)
    (delta : String) (dB : Delta) (m : JsObject) (c : List String)
    (x : String) (h : x ∈ c) :
    x ∈ (mergeStep itemA itemB diffA delta dB m c).2 := by
  rcases mergeStep_conflicts_cases itemA itemB diffA delta dB m c with h2 | h2 <;>
    simp [h2, h]

theorem mergeStep_conflicts_origin (itemA itemB : JsObject) (diffA : DiffObj)
    (delta : String) (dB : Delta) (m : JsObject) (c : List String)
    (x : String) (h : x ∈ (mergeStep itemA itemB diffA delta dB m c).2) :
    x ∈ c ∨ x = delta := by
  rcases mergeStep_conflicts_cases itemA itemB diffA delta dB m c with h2 | h2 <;>
    rw [h2] at h
  · exact Or.inl h
  · rcases List.mem_append.mp h with h3 | h3
    · exact Or.inl h3
    · exact Or.inr (by simpa using h3)

theorem mergeStepElse_has_ne (itemA itemB : JsObject) (dAOpt : Option Delta)
    (delta : String) (dB : Delta) (m : JsObject) (c : List String)
    (k : String) (h : delta ≠ k) :
    assocHas (mergeStepElse itemA itemB dAOpt delta dB m c).1 k
      = assocHas m k := by
  unfold mergeStepElse
  split_ifs <;>
    simp [assocHas_del_ne m delta k h, assocHas_set_ne m delta k _ h]

theorem mergeStep_has_ne (itemA itemB : JsObject) (diffA : DiffObj)
    (delta : String) (dB : Delta) (m : JsObject) (c : List String)
    (k : String) (h : delta ≠ k) :
    assocHas (mergeStep itemA itemB diffA delta dB m c).1 k = assocHas m k := by
  unfold mergeStep
  cases h2 : assocGet diffA delta with
  | none => exact mergeStepElse_has_ne itemA itemB none delta dB m c k h
  | some dA =>
    dsimp only
    by_cases hd : dA ≠ dB
    · rw [if_pos hd]
    · rw [if_neg hd]
      exact mergeStepElse_has_ne itemA itemB (some dA) delta dB m c k h

theorem mergeLoop_conflicts_mono (itemA itemB : JsObject) (diffA : DiffObj) :
    ∀ (db : DiffObj) (m : JsObject) (c : List String) (x : String),
    x ∈ c → x ∈ (mergeLoop itemA itemB diffA db m c).2 := by
  intro db
  induction db with
  | nil => intro m c x h; exact h
  | cons p rest ih =>
    intro m c x h
    rcases p with ⟨delta, dB⟩
    simp only [mergeLoop]
    exact ih _ _ x (mergeStep_conflicts_mono itemA itemB diffA delta dB m c x h)

theorem mergeLoop_conflicts_origin (itemA itemB : JsObject) (diffA : DiffObj) :
    ∀ (db : DiffObj) (m : JsObject) (c : List String) (x : String),
    x ∈ (mergeLoop itemA itemB diffA db m c).2 → x ∈ c ∨ x ∈ assocKeys db := by
  intro db
  induction db with
  | nil => intro m c x h; exact Or.inl h
  | cons p rest ih =>
    intro m c x h
    rcases p with ⟨delta, dB⟩
    simp only [mergeLoop] at h
    rcases ih _ _ x h with h2 | h2
    · rcases mergeStep_conflicts_origin itemA itemB diffA delta dB m c x h2 with h3 | h3
      · exact Or.inl h3
      · exact Or.inr (by simp [assocKeys, h3])
    · exact Or.inr (by simp [assocKeys]; right; simpa [assocKeys] using h2)

theorem mergeLoop_has_not_mem (itemA itemB : JsObject) (diffA : DiffObj) :
    ∀ (db : DiffObj) (m : JsObject) (c : List String) (k : String),
    k ∉ assocKeys db →
    assocHas (mergeLoop itemA itemB diffA db m c).1 k = assocHas m k := by
  intro db
  induction db with
  | nil => intro m c k _; rfl
  | cons p rest ih =>
    intro m c k hk
    rcases p with ⟨delta, dB⟩
    have h1 : delta ≠ k := by
      intro he
      exact hk (by simp [assocKeys, he])
    have h2 : k ∉ assocKeys rest := by
      intro hm
      exact hk (by simp [assocKeys] at hm ⊢; right; exact hm)
    simp only [mergeLoop]
    rw [ih _ _ k h2]
    exact mergeStep_has_ne itemA itemB diffA delta dB m c k h1

theorem mergeLoop_del_applies (itemA itemB : JsObject) (diffA : DiffObj) :
    ∀ (db : DiffObj) (m : JsObject) (c : List String) (k : String),
    (assocKeys db).Nodup → (k, Delta.dDel) ∈ db → assocGet diffA k = none →
    k ∉ c →
    assocHas (mergeLoop itemA itemB diffA db m c).1 k = false ∧
    k ∉ (mergeLoop itemA itemB diffA db m c).2 := by
  intro db
  induction db with
  | nil => intro m c k _ hm; simp at hm
  | cons p rest ih =>
    intro m c k hnd hm hA hc
    rcases p with ⟨delta, dB⟩
    have hnd2 : (delta :: assocKeys rest).Nodup := hnd
    by_cases hd : delta = k
    · subst hd
      have hrest : delta ∉ assocKeys rest := (List.nodup_cons.mp hnd2).1
      have hhead : dB = Delta.dDel := by
        rcases List.mem_cons.mp hm with h | h
        · exact (congrArg Prod.snd h).symm
        · exact absurd (mem_keys_of_mem h) hrest
      subst hhead
      simp only [mergeLoop]
      have hstep : mergeStep itemA itemB diffA delta Delta.dDel m c
          = (assocDel m delta, c) := by
        unfold mergeStep mergeStepElse
        rw [hA]
        simp
      rw [hstep]
      constructor
      · rw [mergeLoop_has_not_mem itemA itemB diffA rest _ _ delta hrest]
        exact assocHas_del_self m delta
      · intro hcon
        rcases mergeLoop_conflicts_origin itemA itemB diffA rest _ _ delta hcon with h | h
        · exact hc h
        · exact hrest h
    · have hm2 : (k, Delta.dDel) ∈ rest := by
        rcases List.mem_cons.mp hm with h | h
        · exact absurd (congrArg Prod.fst h) (by simpa using fun he => hd he.symm)
        · exact h
      simp only [mergeLoop]
      apply ih _ _ k (List.nodup_cons.mp hnd2).2 hm2 hA
      intro hcs
      rcases mergeStep_conflicts_origin itemA itemB diffA delta dB m c k hcs with h | h
      · exact hc h
      · exact hd h.symm

theorem mergeLoop_conflict_hit (itemA itemB : JsObject) (diffA : DiffObj) :
    ∀ (db : DiffObj) (m : JsObject) (c : List String) (k : String) (dA dB : Delta),
    (assocKeys db).Nodup → (k, dB) ∈ db → assocGet diffA k = some dA →
    dA ≠ dB →
    k ∈ (mergeLoop itemA itemB diffA db m c).2 := by
  intro db
  induction db with
  | nil => intro m c k dA dB _ hm; simp at hm
  | cons p rest ih =>
    intro m c k dA dB hnd hm hA hne
    rcases p with ⟨delta, dB2⟩
    have hnd2 : (delta :: assocKeys rest).Nodup := hnd
    by_cases hd : delta = k
    · subst hd
      have hrest : delta ∉ assocKeys rest := (List.nodup_cons.mp hnd2).1
      have hhead : dB2 = dB := by
        rcases List.mem_cons.mp hm with h | h
        · exact (congrArg Prod.snd h.symm)
        · exact absurd (mem_keys_of_mem h) hrest
      subst hhead
      simp only [mergeLoop]
      have hstep : mergeStep itemA itemB diffA delta dB2 m c = (m, c ++ [delta]) := by
        unfold mergeStep
        rw [hA]
        dsimp only
        rw [if_pos hne]
      rw [hstep]
      exact mergeLoop_conflicts_mono itemA itemB diffA rest _ _ delta (by simp)
    · have hm2 : (k, dB) ∈ rest := by
        rcases List.mem_cons.mp hm with h | h
        · exact absurd (congrArg Prod.fst h) (by simpa using fun he => hd he.symm)
        · exact h
      simp only [mergeLoop]
      exact ih _ _ k dA dB (List.nodup_cons.mp hnd2).2 hm2 hA hne

/-! ### Reflexivity support lemmas -/

theorem assocHas_append_single {α : Type} (d : List (String × α))
    (k j : String) (v : α) :
    assocHas (d ++ [(k, v)]) j = (assocHas d j || (k == j)) := by
  induction d with
  | nil => simp [assocHas]
  | cons p rest ih =>
    simp only [List.cons_append, List.append_eq, assocHas]
    rw [ih, Bool.or_assoc]

theorem jsCopy_go (a : JsObject) :
    ∀ (ks : List String) (acc : JsObject), ks.Nodup →
    (∀ k ∈ ks, assocHas acc k = false) → (∀ k ∈ ks, k ∈ assocKeys a) →
    ks.foldl
      (fun m k =>
        match assocGet a k with
        | some v => assocSet m k v
        | none => m) acc
      = acc ++ ks.map (fun k => (k, (assocGet a k).getD .vNull)) := by
  intro ks
  induction ks with
  | nil => intro acc _ _ _; simp
  | cons k rest ih =>
    intro acc hnd hacc hmem
    have hka : k ∈ assocKeys a := hmem k (by simp)
    have hsome : ∃ v, assocGet a k = some v := by
      rcases h : assocGet a k with _ | v
      · exact absurd hka (by rwa [← assocGet_eq_none_iff])
      · exact ⟨v, rfl⟩
    rcases hsome with ⟨v, hv⟩
    have hset : assocSet acc k v = acc ++ [(k, v)] := by
      unfold assocSet
      rw [if_neg (by rw [hacc k (by simp)]; exact Bool.false_ne_true)]
    simp only [List.foldl_cons, hv, hset]
    rw [ih (acc ++ [(k, v)]) (List.nodup_cons.mp hnd).2 ?side1
      (fun j hj => hmem j (List.mem_cons_of_mem _ hj))]
    · simp [hv, List.append_assoc]
    · intro j hj
      rw [assocHas_append_single]
      rw [hacc j (List.mem_cons_of_mem _ hj)]
      have : k ≠ j := by
        intro he
        exact (List.nodup_cons.mp hnd).1 (he ▸ hj)
      simp [this]

theorem assoc_reconstruct (a : JsObject) (h : (assocKeys a).Nodup) :
    (assocKeys a).map (fun k => (k, (assocGet a k).getD .vNull)) = a := by
  induction a with
  | nil => rfl
  | cons p rest ih =>
    have h2 : (p.1 :: assocKeys rest).Nodup := h
    have hhead : assocGet (p :: rest) p.1 = some p.2 := by
      simp [assocGet]
    show (p.1, (assocGet (p :: rest) p.1).getD JVal.vNull) ::
        (assocKeys rest).map
          (fun k => (k, (assocGet (p :: rest) k).getD JVal.vNull))
      = p :: rest
    rw [hhead]
    have hstep : (assocKeys rest).map
        (fun k => (k, (assocGet (p :: rest) k).getD JVal.vNull))
        = (assocKeys rest).map
          (fun k => (k, (assocGet rest k).getD JVal.vNull)) := by
      apply List.map_congr_left
      intro k hk
      have hne : p.1 ≠ k := fun he => (List.nodup_cons.mp h2).1 (he ▸ hk)
      simp [assocGet, show (p.1 == k) = false by simpa using hne]
    rw [hstep, ih (List.nodup_cons.mp h2).2]
    rfl

theorem jsCopy_self (a : JsObject) (h : (assocKeys a).Nodup) : jsCopy a = a := by
  unfold jsCopy
  rw [jsCopy_go a (assocKeys a) [] h (fun k _ => rfl) (fun k hk => hk)]
  rw [List.nil_append]
  exact assoc_reconstruct a h

theorem diffPhaseAddGo_self (x : JsObject) :
    ∀ (ks : List String) (d : DiffObj), (∀ k ∈ ks, assocHas x k = true) →
    diffPhaseAddGo x x ks d = d := by
  intro ks
  induction ks with
  | nil => intro d _; rfl
  | cons j rest ih =>
    intro d hmem
    simp only [diffPhaseAddGo]
    rw [if_pos (hmem j (by simp)), if_neg (by simp)]
    exact ih d (fun k hk => hmem k (List.mem_cons_of_mem _ hk))

theorem diffPhaseDelGo_self (x : JsObject) :
    ∀ (ks : List String) (d : DiffObj), (∀ k ∈ ks, assocHas x k = true) →
    diffPhaseDelGo x ks d = d := by
  intro ks
  induction ks with
  | nil => intro d _; rfl
  | cons j rest ih =>
    intro d hmem
    simp only [diffPhaseDelGo]
    rw [if_neg (by rw [hmem j (by simp)]; simp)]
    exact ih d (fun k hk => hmem k (List.mem_cons_of_mem _ hk))

/-- C9 — the three-way merge is reflexive: merging an item (with the meta and
id envelope stripped, as the callers do) with itself over itself as LCA
returns the item unchanged and reports no conflicts. -/
theorem threeWayMerge_reflexive (x : JsObject) (hx : (assocKeys x).Nodup) :
    threeWayMerge x x x none = Sum.inr x := by
  unfold threeWayMerge diffPhaseAdd diffPhaseDel
  have hmem : ∀ k ∈ assocKeys x, assocHas x k = true := by
    intro k hk
    exact (assocHas_iff_mem_keys x k).mpr hk
  dsimp only [Option.getD_none]
  rw [diffPhaseAddGo_self x (assocKeys x) [] hmem]
  rw [diffPhaseDelGo_self x (assocKeys x) [] hmem]
  rw [show (assocKeys x).filter (fun k => assocGet ([] : DiffObj) k = some Delta.dAdd)
      = [] from List.filter_eq_nil_iff.mpr (fun k _ => by simp [assocGet])]
  simp only [mergeLoop]
  rw [jsCopy_self x hx]
  simp

/-- C9 witness at a concrete item. -/
theorem threeWayMerge_reflexive_witness :
    (assocKeys [("foo", JVal.vStr "bar"), ("baz", JVal.vInt 7)]).Nodup ∧
    threeWayMerge [("foo", JVal.vStr "bar"), ("baz", JVal.vInt 7)]
      [("foo", JVal.vStr "bar"), ("baz", JVal.vInt 7)]
      [("foo", JVal.vStr "bar"), ("baz", JVal.vInt 7)] none
      = Sum.inr [("foo", JVal.vStr "bar"), ("baz", JVal.vInt 7)] :=
  ⟨by decide, threeWayMerge_reflexive _ (by decide)⟩

/-! ### C4 support: behaviour of `_threeWayMerge` on deletions -/

/-- Unfolding equation for `threeWayMerge` with a single LCA. -/
theorem threeWayMerge_unfold (a b l : JsObject) :
    threeWayMerge a b l none =
      (if (mergeLoop a b (diffPhaseDel a l (diffPhaseAdd a l []))
            (diffPhaseDel b l (diffPhaseAdd b l []))
            (jsCopy a)
            ((assocKeys l).filter
              (fun k2 => assocGet (diffPhaseDel a l (diffPhaseAdd a l [])) k2
                = some Delta.dAdd))).2.length ≠ 0
      then Sum.inl (mergeLoop a b (diffPhaseDel a l (diffPhaseAdd a l []))
            (diffPhaseDel b l (diffPhaseAdd b l []))
            (jsCopy a)
            ((assocKeys l).filter
              (fun k2 => assocGet (diffPhaseDel a l (diffPhaseAdd a l [])) k2
                = some Delta.dAdd))).2
      else Sum.inr (mergeLoop a b (diffPhaseDel a l (diffPhaseAdd a l []))
            (diffPhaseDel b l (diffPhaseAdd b l []))
            (jsCopy a)
            ((assocKeys l).filter
              (fun k2 => assocGet (diffPhaseDel a l (diffPhaseAdd a l [])) k2
                = some Delta.dAdd))).1) := rfl

/-- If the key is in neither side of the final loop input nor the initial
conflict list, the merged result keeps the presence status of `itemA`
(= `jsCopy a`) and the key is never reported as a conflict. -/
theorem threeWayMerge_untouched_key (a b l : JsObject) (k : String)
    (ha : (assocKeys a).Nodup)
    (hkB : k ∉ assocKeys (diffPhaseDel b l (diffPhaseAdd b l [])))
    (hc0 : k ∉ (assocKeys l).filter
      (fun k2 => assocGet (diffPhaseDel a l (diffPhaseAdd a l [])) k2
        = some Delta.dAdd)) :
    (∀ m, threeWayMerge a b l none = Sum.inr m →
      assocHas m k = assocHas a k) ∧
    (∀ cs, threeWayMerge a b l none = Sum.inl cs → k ∉ cs) := by
  constructor
  · intro m hm
    rw [threeWayMerge_unfold] at hm
    by_cases hlen : (mergeLoop a b (diffPhaseDel a l (diffPhaseAdd a l []))
        (diffPhaseDel b l (diffPhaseAdd b l [])) (jsCopy a)
        ((assocKeys l).filter
          (fun k2 => assocGet (diffPhaseDel a l (diffPhaseAdd a l [])) k2
            = some Delta.dAdd))).2.length ≠ 0
    · rw [if_pos hlen] at hm; cases hm
    · rw [if_neg hlen] at hm
      have hm2 := Sum.inr.inj hm
      rw [← hm2]
      rw [mergeLoop_has_not_mem a b _ _ _ _ k hkB]
      rw [jsCopy_self a ha]
  · intro cs hcs hk
    rw [threeWayMerge_unfold] at hcs
    by_cases hlen : (mergeLoop a b (diffPhaseDel a l (diffPhaseAdd a l []))
        (diffPhaseDel b l (diffPhaseAdd b l [])) (jsCopy a)
        ((assocKeys l).filter
          (fun k2 => assocGet (diffPhaseDel a l (diffPhaseAdd a l [])) k2
            = some Delta.dAdd))).2.length ≠ 0
    · rw [if_pos hlen] at hcs
      have hcs2 := Sum.inl.inj hcs
      rw [← hcs2] at hk
      rcases mergeLoop_conflicts_origin a b _ _ _ _ k hk with h | h
      · exact hc0 h
      · exact hkB h
    · rw [if_neg hlen] at hcs; cases hcs

/-- If the final loop input holds a `-` delta for the key while `diffA` has
no entry, the merged result drops the key and it is never a conflict. -/
theorem threeWayMerge_del_key (a b l : JsObject) (k : String)
    (hdB : (k, Delta.dDel) ∈ diffPhaseDel b l (diffPhaseAdd b l []))
    (hndB : (assocKeys (diffPhaseDel b l (diffPhaseAdd b l []))).Nodup)
    (hdA : assocGet (diffPhaseDel a l (diffPhaseAdd a l [])) k = none)
    (hc0 : k ∉ (assocKeys l).filter
      (fun k2 => assocGet (diffPhaseDel a l (diffPhaseAdd a l [])) k2
        = some Delta.dAdd)) :
    (∀ m, threeWayMerge a b l none = Sum.inr m → assocHas m k = false) ∧
    (∀ cs, threeWayMerge a b l none = Sum.inl cs → k ∉ cs) := by
  have hmain := mergeLoop_del_applies a b
    (diffPhaseDel a l (diffPhaseAdd a l []))
    (diffPhaseDel b l (diffPhaseAdd b l []))
    (jsCopy a)
    ((assocKeys l).filter
      (fun k2 => assocGet (diffPhaseDel a l (diffPhaseAdd a l [])) k2
        = some Delta.dAdd))
    k hndB hdB hdA hc0
  constructor
  · intro m hm
    rw [threeWayMerge_unfold] at hm
    by_cases hlen : (mergeLoop a b (diffPhaseDel a l (diffPhaseAdd a l []))
        (diffPhaseDel b l (diffPhaseAdd b l [])) (jsCopy a)
        ((assocKeys l).filter
          (fun k2 => assocGet (diffPhaseDel a l (diffPhaseAdd a l [])) k2
            = some Delta.dAdd))).2.length ≠ 0
    · rw [if_pos hlen] at hm; cases hm
    · rw [if_neg hlen] at hm
      have hm2 := Sum.inr.inj hm
      rw [← hm2]
      exact hmain.1
  · intro cs hcs hk
    rw [threeWayMerge_unfold] at hcs
    by_cases hlen : (mergeLoop a b (diffPhaseDel a l (diffPhaseAdd a l []))
        (diffPhaseDel b l (diffPhaseAdd b l [])) (jsCopy a)
        ((assocKeys l).filter
          (fun k2 => assocGet (diffPhaseDel a l (diffPhaseAdd a l [])) k2
            = some Delta.dAdd))).2.length ≠ 0
    · rw [if_pos hlen] at hcs
      have hcs2 := Sum.inl.inj hcs
      rw [← hcs2] at hk
      exact hmain.2 hk
    · rw [if_neg hlen] at hcs; cases hcs

/-- If the final loop input holds a delta for the key that disagrees with
the delta in `diffA`, the merge returns a conflict list containing the key. -/
theorem threeWayMerge_conflict_key (a b l : JsObject) (k : String)
    (dA dB : Delta)
    (hdB : (k, dB) ∈ diffPhaseDel b l (diffPhaseAdd b l []))
    (hndB : (assocKeys (diffPhaseDel b l (diffPhaseAdd b l []))).Nodup)
    (hdA : assocGet (diffPhaseDel a l (diffPhaseAdd a l [])) k = some dA)
    (hne : dA ≠ dB) :
    ∃ cs, threeWayMerge a b l none = Sum.inl cs ∧ k ∈ cs := by
  have hmem := mergeLoop_conflict_hit a b
    (diffPhaseDel a l (diffPhaseAdd a l []))
    (diffPhaseDel b l (diffPhaseAdd b l []))
    (jsCopy a)
    ((assocKeys l).filter
      (fun k2 => assocGet (diffPhaseDel a l (diffPhaseAdd a l [])) k2
        = some Delta.dAdd))
    k dA dB hndB hdB hdA hne
  refine ⟨_, ?_, hmem⟩
  rw [threeWayMerge_unfold]
  rw [if_pos ?hpos]
  case hpos =>
    intro hlen
    rw [List.length_eq_zero] at hlen
    rw [hlen] at hmem
    cases hmem

/-! ### C4: the deletion rule of the three-way merge -/

theorem diffSide_get_del (item lcaX : JsObject) (k : String)
    (hl : (assocKeys lcaX).Nodup)
    (hitem : assocHas item k = false) (hkl : assocHas lcaX k = true) :
    assocGet (diffPhaseDel item lcaX (diffPhaseAdd item lcaX [])) k
      = some Delta.dDel := by
  unfold diffPhaseDel
  exact diffPhaseDelGo_get_del item k hitem (assocKeys lcaX) _ hl
    ((assocHas_iff_mem_keys lcaX k).mp hkl)

theorem diffSide_get_unchanged (item lcaX : JsObject) (k : String)
    (hitem : assocHas item k = true) (hkl : assocHas lcaX k = true)
    (heq : jsonGetStr item k = jsonGetStr lcaX k) :
    assocGet (diffPhaseDel item lcaX (diffPhaseAdd item lcaX [])) k
      = none := by
  unfold diffPhaseDel diffPhaseAdd
  rw [diffPhaseDelGo_get_has item k hitem (assocKeys lcaX) _]
  rw [diffPhaseAddGo_get_unchanged item lcaX k hkl heq (assocKeys item) []]
  rfl

theorem diffSide_get_change (item lcaX : JsObject) (k : String)
    (hitem : (assocKeys item).Nodup)
    (hmem : assocHas item k = true) (hkl : assocHas lcaX k = true)
    (hne : jsonGetStr item k ≠ jsonGetStr lcaX k) :
    assocGet (diffPhaseDel item lcaX (diffPhaseAdd item lcaX [])) k
      = some Delta.dChange := by
  unfold diffPhaseDel diffPhaseAdd
  rw [diffPhaseDelGo_get_has item k hmem (assocKeys lcaX) _]
  exact diffPhaseAddGo_get_change item lcaX k hkl hne (assocKeys item) []
    hitem ((assocHas_iff_mem_keys item k).mp hmem)

theorem diffSide_keys_nodup (item lcaX : JsObject) :
    (assocKeys (diffPhaseDel item lcaX (diffPhaseAdd item lcaX []))).Nodup := by
  unfold diffPhaseDel diffPhaseAdd
  exact diffPhaseDelGo_keys_nodup item (assocKeys lcaX) _
    (diffPhaseAddGo_keys_nodup item lcaX (assocKeys item) [] List.nodup_nil)

theorem conflicts0_not_mem_of_get (a l : JsObject) (k : String) (res : Option Delta)
    (hdA : assocGet (diffPhaseDel a l (diffPhaseAdd a l [])) k = res)
    (hres : res ≠ some Delta.dAdd) :
    k ∉ (assocKeys l).filter
      (fun k2 => assocGet (diffPhaseDel a l (diffPhaseAdd a l [])) k2
        = some Delta.dAdd) := by
  intro hmem
  have h2 := (List.mem_filter.mp hmem).2
  rw [decide_eq_true_eq] at h2
  rw [hdA] at h2
  exact hres h2

/-- C4 — in `_threeWayMerge`, an attribute present in the LCA and deleted in
exactly one side is dropped from the merged item when the other side left it
unchanged (same JSON serialization as the LCA), and is reported as a
conflict (with no merged item returned) when the other side changed its
JSON-serialized value. -/
theorem threeWayMerge_delete_rule (a b l : JsObject) (k : String)
    (ha : (assocKeys a).Nodup) (hb : (assocKeys b).Nodup)
    (hl : (assocKeys l).Nodup) (hkl : assocHas l k = true) :
    ((assocHas a k = false → assocHas b k = true →
        jsonGetStr b k = jsonGetStr l k →
        (∀ m, threeWayMerge a b l none = Sum.inr m → assocHas m k = false) ∧
        (∀ cs, threeWayMerge a b l none = Sum.inl cs → k ∉ cs)) ∧
     (assocHas b k = false → assocHas a k = true →
        jsonGetStr a k = jsonGetStr l k →
        (∀ m, threeWayMerge a b l none = Sum.inr m → assocHas m k = false) ∧
        (∀ cs, threeWayMerge a b l none = Sum.inl cs → k ∉ cs)) ∧
     (assocHas a k = false → assocHas b k = true →
        jsonGetStr b k ≠ jsonGetStr l k →
        ∃ cs, threeWayMerge a b l none = Sum.inl cs ∧ k ∈ cs) ∧
     (assocHas b k = false → assocHas a k = true →
        jsonGetStr a k ≠ jsonGetStr l k →
        ∃ cs, threeWayMerge a b l none = Sum.inl cs ∧ k ∈ cs)) := by
  refine ⟨?case1, ?case2, ?case3, ?case4⟩
  case case1 =>
    intro hA hBk hBeq
    have hdB := diffSide_get_unchanged b l k hBk hkl hBeq
    have hkB := (assocGet_eq_none_iff _ k).mp hdB
    have hdA := diffSide_get_del a l k hl hA hkl
    have hc0 := conflicts0_not_mem_of_get a l k _ hdA (by simp)
    have hmain := threeWayMerge_untouched_key a b l k ha hkB hc0
    refine ⟨fun m hm => ?_, hmain.2⟩
    rw [hmain.1 m hm]
    exact hA
  case case2 =>
    intro hB hAk hAeq
    have hdB := diffSide_get_del b l k hl hB hkl
    have hdA := diffSide_get_unchanged a l k hAk hkl hAeq
    have hc0 := conflicts0_not_mem_of_get a l k _ hdA (by simp)
    exact threeWayMerge_del_key a b l k (assocGet_some_mem _ k _ hdB)
      (diffSide_keys_nodup b l) hdA hc0
  case case3 =>
    intro hA hBk hBne
    have hdB := diffSide_get_change b l k hb hBk hkl hBne
    have hdA := diffSide_get_del a l k hl hA hkl
    exact threeWayMerge_conflict_key a b l k Delta.dDel Delta.dChange
      (assocGet_some_mem _ k _ hdB) (diffSide_keys_nodup b l) hdA (by simp)
  case case4 =>
    intro hB hAk hAne
    have hdB := diffSide_get_del b l k hl hB hkl
    have hdA := diffSide_get_change a l k ha hAk hkl hAne
    exact threeWayMerge_conflict_key a b l k Delta.dChange Delta.dDel
      (assocGet_some_mem _ k _ hdB) (diffSide_keys_nodup b l) hdA (by simp)

/-- C4 witness: concrete items exercising the deletion rule.  With
LCA `(x:1, y:2)`, side A `(x:1)` (attribute y deleted) and side B
`(x:1, y:2)` (unchanged), the merge succeeds and y is absent from it. -/
theorem threeWayMerge_delete_rule_witness :
    assocHas [("x", JVal.vInt 1), ("y", JVal.vInt 2)] "y" = true ∧
    threeWayMerge [("x", JVal.vInt 1)]
      [("x", JVal.vInt 1), ("y", JVal.vInt 2)]
      [("x", JVal.vInt 1), ("y", JVal.vInt 2)] none
      = Sum.inr [("x", JVal.vInt 1)] ∧
    (∀ m, threeWayMerge [("x", JVal.vInt 1)]
        [("x", JVal.vInt 1), ("y", JVal.vInt 2)]
        [("x", JVal.vInt 1), ("y", JVal.vInt 2)] none = Sum.inr m →
      assocHas m "y" = false) :=
  ⟨by decide, rfl,
    ((threeWayMerge_delete_rule [("x", JVal.vInt 1)]
        [("x", JVal.vInt 1), ("y", JVal.vInt 2)]
        [("x", JVal.vInt 1), ("y", JVal.vInt 2)] "y"
        (by decide) (by decide) (by decide) (by decide)).1
      (by decide) (by decide) rfl).1⟩

/-! ### C2: the finalization condition of the LCA walk -/

theorem buildObj2_go_mem (x : String) :
    ∀ (arr2 acc : List String),
    (x ∈ arr2.foldl (fun o el => if o.contains el then o else o ++ [el]) acc
      ↔ x ∈ acc ∨ x ∈ arr2) := by
  intro arr2
  induction arr2 with
  | nil => intro acc; simp
  | cons el rest ih =>
    intro acc
    simp only [List.foldl_cons]
    rw [ih]
    by_cases hc : acc.contains el
    · rw [if_pos hc]
      constructor
      · rintro (h | h)
        · exact Or.inl h
        · exact Or.inr (List.mem_cons_of_mem _ h)
      · rintro (h | h)
        · exact Or.inl h
        · rcases List.mem_cons.mp h with h2 | h2
          · exact Or.inl (h2 ▸ (show el ∈ acc by simpa using hc))
          · exact Or.inr h2
    · rw [if_neg hc]
      constructor
      · rintro (h | h)
        · rcases List.mem_append.mp h with h2 | h2
          · exact Or.inl h2
          · exact Or.inr (by simpa using Or.inl (by simpa using h2))
        · exact Or.inr (List.mem_cons_of_mem _ h)
      · rintro (h | h)
        · exact Or.inl (List.mem_append.mpr (Or.inl h))
        · rcases List.mem_cons.mp h with h2 | h2
          · exact Or.inl (List.mem_append.mpr (Or.inr (by simp [h2])))
          · exact Or.inr h2

theorem buildObj2_mem (x : String) (arr2 : List String) :
    x ∈ buildObj2 arr2 ↔ x ∈ arr2 := by
  unfold buildObj2
  rw [buildObj2_go_mem x arr2 []]
  simp

theorem buildObj2_go_nodup :
    ∀ (arr2 acc : List String), acc.Nodup →
    (arr2.foldl (fun o el => if o.contains el then o else o ++ [el]) acc).Nodup := by
  intro arr2
  induction arr2 with
  | nil => intro acc h; exact h
  | cons el rest ih =>
    intro acc h
    simp only [List.foldl_cons]
    apply ih
    by_cases hc : acc.contains el
    · rw [if_pos hc]; exact h
    · rw [if_neg hc]
      rw [List.nodup_append]
      refine ⟨h, by simp, ?_⟩
      intro x hx
      simp only [List.mem_singleton]
      intro hxe
      exact absurd (show acc.contains el = true by simpa using (hxe ▸ hx)) hc

theorem buildObj2_nodup (arr2 : List String) : (buildObj2 arr2).Nodup :=
  buildObj2_go_nodup arr2 [] List.nodup_nil

theorem intersectLoop_all1in2 :
    ∀ (arr1 obj2 : List String), arr1.Nodup → obj2.Nodup →
    ((intersectLoop arr1 obj2).2.1 = true ↔ ∀ x ∈ arr1, x ∈ obj2) := by
  intro arr1
  induction arr1 with
  | nil => intro obj2 _ _; simp [intersectLoop]
  | cons el rest ih =>
    intro obj2 h1 h2
    have hel : el ∉ rest := (List.nodup_cons.mp h1).1
    have h1r : rest.Nodup := (List.nodup_cons.mp h1).2
    by_cases hc : obj2.contains el
    · have helo : el ∈ obj2 := by simpa using hc
      simp only [intersectLoop, if_pos hc]
      rw [ih (obj2.erase el) h1r (h2.erase el)]
      constructor
      · intro h x hx
        rcases List.mem_cons.mp hx with he | hxr
        · exact he ▸ helo
        · exact List.erase_subset _ _ (h x hxr)
      · intro h x hx
        have hxo : x ∈ obj2 := h x (List.mem_cons_of_mem _ hx)
        have hxel : x ≠ el := fun he => hel (he ▸ hx)
        exact (List.mem_erase_of_ne hxel).mpr hxo
    · simp only [intersectLoop, if_neg hc]
      constructor
      · intro h; cases h
      · intro h
        exact absurd (h el (by simp)) (by simpa using hc)

theorem intersectLoop_all2in1 :
    ∀ (arr1 obj2 : List String), obj2.Nodup →
    ((intersectLoop arr1 obj2).2.2.isEmpty = true ↔ ∀ x ∈ obj2, x ∈ arr1) := by
  intro arr1
  induction arr1 with
  | nil =>
    intro obj2 _
    simp only [intersectLoop, List.isEmpty_iff]
    constructor
    · intro h x hx; rw [h] at hx; cases hx
    · intro h
      cases obj2 with
      | nil => rfl
      | cons y ys => exact absurd (h y (by simp)) (by simp)
  | cons el rest ih =>
    intro obj2 h2
    by_cases hc : obj2.contains el
    · have helo : el ∈ obj2 := by simpa using hc
      simp only [intersectLoop, if_pos hc]
      rw [ih (obj2.erase el) (h2.erase el)]
      constructor
      · intro h x hx
        by_cases hxe : x = el
        · simp [hxe]
        · exact List.mem_cons_of_mem _ (h x ((List.mem_erase_of_ne hxe).mpr hx))
      · intro h x hx
        have hxo : x ∈ obj2 := List.erase_subset _ _ hx
        have hxel : x ≠ el := by
          intro he
          exact ((List.Nodup.mem_erase_iff h2).mp (he ▸ hx)).1 rfl
        rcases List.mem_cons.mp (h x hxo) with he | hr
        · exact absurd he hxel
        · exact hr
    · simp only [intersectLoop, if_neg hc]
      rw [ih obj2 h2]
      constructor
      · intro h x hx
        exact List.mem_cons_of_mem _ (h x hx)
      · intro h x hx
        rcases List.mem_cons.mp (h x hx) with he | hr
        · exact absurd (he ▸ hx) (by simpa using hc)
        · exact hr

theorem intersect_subset_zero_iff (arr1 arr2 : List String)
    (h1 : arr1.Nodup) :
    (intersect arr1 arr2).2 = some 0 ↔
      ((∀ x ∈ arr1, x ∈ arr2) ∧ (∀ x ∈ arr2, x ∈ arr1)) := by
  have hn2 := buildObj2_nodup arr2
  have hA := intersectLoop_all1in2 arr1 (buildObj2 arr2) h1 hn2
  have hB := intersectLoop_all2in1 arr1 (buildObj2 arr2) hn2
  unfold intersect
  by_cases ha : (intersectLoop arr1 (buildObj2 arr2)).2.1 = true
  · by_cases hb : (intersectLoop arr1 (buildObj2 arr2)).2.2.isEmpty = true
    · simp only [ha, hb, if_true, Bool.true_or]
      constructor
      · intro _
        refine ⟨fun x hx => (buildObj2_mem x arr2).mp (hA.mp ha x hx),
          fun x hx => hB.mp hb x ((buildObj2_mem x arr2).mpr hx)⟩
      · intro _
        norm_num
    · simp only [ha, Bool.eq_false_iff.mpr hb, if_true, if_false,
        Bool.true_or]
      constructor
      · intro h; norm_num at h
      · rintro ⟨_, h⟩
        exact absurd (hB.mpr (fun x hx =>
          h x ((buildObj2_mem x arr2).mp hx))) hb
  · by_cases hb : (intersectLoop arr1 (buildObj2 arr2)).2.2.isEmpty = true
    · simp only [Bool.eq_false_iff.mpr ha, hb, if_true, if_false,
        Bool.false_or]
      constructor
      · intro h; norm_num at h
      · rintro ⟨h, _⟩
        exact absurd (hA.mpr (fun x hx =>
          (buildObj2_mem x arr2).mpr (h x hx))) ha
    · simp only [Bool.eq_false_iff.mpr ha, Bool.eq_false_iff.mpr hb,
        if_false, Bool.false_or]
      constructor
      · intro h; cases h
      · rintro ⟨h, _⟩
        exact absurd (hA.mpr (fun x hx =>
          (buildObj2_mem x arr2).mpr (h x hx))) ha

/-- C2 (amended) — the LCA walk finalizes after a stream item exactly when
`_intersect` of the frontier key sets reports `subset === 0`, i.e. when
`headsX` and `headsY` cover the same set of versions (not merely a one-sided
subset); in addition the walk terminates when the stream is exhausted,
returning the collected LCAs. -/
theorem findLCAs_finalize_condition (st : LcaState)
    (h : (assocKeys st.headsX).Nodup) :
    (lcaFinalizeNow st = true ↔
      (∀ k, k ∈ assocKeys st.headsX ↔ k ∈ assocKeys st.headsY)) ∧
    (∀ (pX pY : String) (db : List LcaItem) (id : String)
      (persp : List String) (st2 : LcaState),
      findLCAsRun pX pY db id persp [] st2 = .ok st2.lcas) := by
  constructor
  · unfold lcaFinalizeNow
    rw [decide_eq_true_eq]
    rw [intersect_subset_zero_iff _ _ h]
    constructor
    · rintro ⟨hxy, hyx⟩ k
      exact ⟨fun hk => hxy k hk, fun hk => hyx k hk⟩
    · intro hk
      exact ⟨fun x hx => (hk x).mp hx, fun x hx => (hk x).mpr hx⟩
  · intro pX pY db id persp st2
    rfl

/-- C2 witness: a concrete frontier state with equal key sets finalizes. -/
theorem findLCAs_finalize_condition_witness :
    (assocKeys ((⟨[("A", "I")], [("A", "J")], [], [], [], []⟩ :
      LcaState)).headsX).Nodup ∧
    (lcaFinalizeNow (⟨[("A", "I")], [("A", "J")], [], [], [], []⟩ :
      LcaState) = true ↔
      (∀ k, k ∈ assocKeys ((⟨[("A", "I")], [("A", "J")], [], [], [], []⟩ :
          LcaState)).headsX ↔
        k ∈ assocKeys ((⟨[("A", "I")], [("A", "J")], [], [], [], []⟩ :
          LcaState)).headsY)) :=
  ⟨by decide,
    (findLCAs_finalize_condition
      (⟨[("A", "I")], [("A", "J")], [], [], [], []⟩ : LcaState)
      (by decide)).1⟩

/-- C2 counterexample — the claim that the walk finalizes as soon as one
frontier is a (one-sided) subset of the other is false on the code: in a run
for items B and M of the DAG A, B(A), C(A), M(B, C), after the first stream
item the frontier of X is the strict subset (B) of the frontier of Y (B, C),
yet the finalization condition is false and the walk continues (the full run
below walks on and returns the LCA B by the equal-sets rule). -/
theorem findLCAs_onesided_subset_counterexample :
    (∀ k, k ∈ assocKeys (lcaProcessItem "I" "I" ⟨"doc", "M", "I", ["B", "C"]⟩
        ⟨[("B", "I")], [("M", "I")], [], [], [], []⟩).headsX →
      k ∈ assocKeys (lcaProcessItem "I" "I" ⟨"doc", "M", "I", ["B", "C"]⟩
        ⟨[("B", "I")], [("M", "I")], [], [], [], []⟩).headsY) ∧
    lcaFinalizeNow (lcaProcessItem "I" "I" ⟨"doc", "M", "I", ["B", "C"]⟩
        ⟨[("B", "I")], [("M", "I")], [], [], [], []⟩) = false ∧
    findLCAs ⟨"doc", some "B", "I", ["A"]⟩ ⟨"doc", some "M", "I", ["B", "C"]⟩
      [⟨"doc", "A", "I", []⟩, ⟨"doc", "B", "I", ["A"]⟩,
       ⟨"doc", "C", "I", ["A"]⟩, ⟨"doc", "M", "I", ["B", "C"]⟩]
      = .ok ["B"] :=
  ⟨by decide, by decide, rfl⟩

/-! ### C10: oplog deletes create acknowledged tombstones -/

/-- C10 — an oplog delete builds its tombstone from the last acknowledged or
locally created local item: the new item is marked deleted, its single
parent is that item's version, and its meta is created already acknowledged
with the oplog timestamp (while the new version built for inserts and
updates starts unacknowledged); when no such previous item exists the
delete fails with `previous version of doc not found`. -/
theorem applyOplogDelete_spec (e : List Nat) (dbS dbN : List VcItem)
    (localPe vk : String) (og : OplogItem) (p : VcItem) (item2 : VcItem)
    (hop : og.op = "d") (hoid : og.oid ≠ "")
    (hS : findLastAckdOrLocallyCreated dbS localPe og.oid = some p)
    (hN : findLastAckdOrLocallyCreated dbN localPe og.oid = none) :
    Except.map (fun it => (it.id.d, it.id.pa, it.m3))
        (applyOplogDeleteItem e dbS localPe vk og)
      = .ok (true, [p.id.v], ⟨true, og.ts, false⟩) ∧
    applyOplogDeleteItem e dbN localPe vk og
      = .error "previous version of doc not found" ∧
    (applyOplogUpdateNewVersion e localPe vk og item2).m3
      = ⟨false, og.ts, false⟩ := by
  refine ⟨?_, ?_, rfl⟩
  · unfold applyOplogDeleteItem
    rw [if_neg (by simp [hop]), if_neg hoid, hS]
    rfl
  · unfold applyOplogDeleteItem
    rw [if_neg (by simp [hop]), if_neg hoid, hN]

/-- C10 witness: deleting `doc` after the acknowledged local item `c10p`
creates the acknowledged tombstone, and with no previous item it fails. -/
theorem applyOplogDelete_spec_witness :
    Except.map (fun it => (it.id.d, it.id.pa, it.m3))
        (applyOplogDeleteItem [0, 0, 0, 0, 0, 0] [c10p] "_local" "_v" c10og)
      = .ok (true, [c10p.id.v], ⟨true, c10og.ts, false⟩) ∧
    applyOplogDeleteItem [0, 0, 0, 0, 0, 0] [] "_local" "_v" c10og
      = .error "previous version of doc not found" ∧
    (applyOplogUpdateNewVersion [0, 0, 0, 0, 0, 0] "_local" "_v" c10og
      c10p).m3 = ⟨false, c10og.ts, false⟩ :=
  applyOplogDelete_spec [0, 0, 0, 0, 0, 0] [c10p] [] "_local" "_v" c10og c10p
    c10p rfl (by decide) rfl rfl

/-! ### C6: merge conflicts do not abort processing -/

/-- C6 — a three-way merge conflict is not fatal: in `_mergeNewHeads` the
offending head is kept with `_m3._c = true` and the iteration continues
(result `next`, not an abort), and in the `mergeWithLocal` iterator a
conflict stores the source head in the stage tree with `h.c = true` while
handing nothing to the merge handler. -/
theorem merge_conflict_not_fatal (e : List Nat) (pOE : Bool)
    (mf : VcItem → VcItem → MergeOut) (lh head : VcItem)
    (hv : lh.id.v ≠ head.id.v) (hld : lh.id.d = false)
    (hc : mf lh head = .conflict) (streeName : String) (stage : MtTree)
    (mf2 : MtItem → MtItem → Except (List String) MtItem)
    (attrs : List String) (shead : MtItem) (dhead : Option MtItem)
    (hpe : shead.h.pe = streeName) (st2 : MtTree)
    (hw : treeWrite stage { shead with h := { shead.h with c := true } }
      = .ok st2) :
    mergeNewHeadsStep e [] pOE mf (some lh) head
      = .next { head with m3 := { head.m3 with c := true } } none ∧
    mergeWithLocalIter streeName stage mf2 (some (.inl attrs)) shead dhead
      = .ok (st2, []) := by
  constructor
  · unfold mergeNewHeadsStep
    dsimp only
    have hC1 : (if (([] : List String)).contains head.id.id = true ∧
          head.id.pa.isEmpty = true ∧ lh.id.d = true then
          ({ head with id := { head.id with pa := [lh.id.v] } } : VcItem)
        else head) = head :=
      if_neg (fun hcon => Bool.false_ne_true hcon.1)
    rw [hC1]
    rw [if_neg (fun hcon => Bool.false_ne_true hcon.1)]
    rw [if_neg hv]
    rw [if_neg (show ¬lh.id.d = true from by rw [hld]; exact Bool.false_ne_true)]
    rw [hc]
  · unfold mergeWithLocalIter
    rw [if_neg (by simp [hpe])]
    dsimp only
    rw [hw]
    rfl

/-- C6 witness: a conflicting recursive merge of `c6lh` and `c6hd` flags the
head and continues, and a conflicted source head is staged flagged with no
merge-handler call. -/
theorem merge_conflict_not_fatal_witness :
    mergeNewHeadsStep [] [] false (fun _ _ => MergeOut.conflict) (some c6lh)
        c6hd
      = .next { c6hd with m3 := { c6hd.m3 with c := true } } none ∧
    mergeWithLocalIter "r" [] (fun a _ => .ok a) (some (.inl ["x"])) c6sh none
      = .ok (c6st2, []) :=
  merge_conflict_not_fatal [] false (fun _ _ => MergeOut.conflict) c6lh c6hd
    (by decide) rfl rfl "r" [] (fun a _ => .ok a) ["x"] c6sh none rfl c6st2 rfl

/-! ### C7: new roots against a preceding item -/

/-- C7 — a new root for an id with a preceding item is accepted only when
that item is a deletion tombstone: `_checkAncestry` then rewrites the
root's parent list to the tombstone's version, fails with `root preceded`
when the preceding item is not a deletion, and `_mergeNewHeads` applies the
same rewrite against a persisted deleted local head. -/
theorem checkAncestry_root_rule (stD stN : CAState) (item prevD prevN : VcItem)
    (h1 : item.id.pa = [])
    (h2 : ((assocGet stD.DAGs item.id.id).getD []).getLast? = some prevD)
    (h3 : prevD.id.d = true)
    (h4 : ((assocGet stN.DAGs item.id.id).getD []).getLast? = some prevN)
    (h5 : prevN.id.d = false) (e : List Nat) (nr : List String) (pOE : Bool)
    (mf : VcItem → VcItem → MergeOut) (lh : VcItem)
    (h6 : nr.contains item.id.id = true) (h7 : lh.id.d = true) :
    Except.map (fun st => st.allItems) (checkAncestryStep stD item)
      = .ok (stD.allItems
          ++ [{ item with id := { item.id with pa := [prevD.id.v] } }]) ∧
    checkAncestryStep stN item = .error "root preceded" ∧
    mergeNewHeadsStep e nr pOE mf (some lh) item
      = .next { item with id := { item.id with pa := [lh.id.v] } } none := by
  refine ⟨?_, ?_, ?_⟩
  · unfold checkAncestryStep
    rw [h1]
    dsimp only
    rw [if_pos (show (([] : List String)).isEmpty = true from rfl)]
    rw [h2]
    dsimp only
    rw [if_pos h3]
    rfl
  · unfold checkAncestryStep
    rw [h1]
    dsimp only
    rw [if_pos (show (([] : List String)).isEmpty = true from rfl)]
    rw [h4]
    dsimp only
    rw [if_neg (show ¬prevN.id.d = true from by
      rw [h5]; exact Bool.false_ne_true)]
  · unfold mergeNewHeadsStep
    dsimp only
    have hcond : nr.contains item.id.id = true ∧
        item.id.pa.isEmpty = true ∧ lh.id.d = true :=
      ⟨h6, by rw [h1]; rfl, h7⟩
    have hC1 : (if nr.contains item.id.id = true ∧
          item.id.pa.isEmpty = true ∧ lh.id.d = true then
          ({ item with id := { item.id with pa := [lh.id.v] } } : VcItem)
        else item)
        = { item with id := { item.id with pa := [lh.id.v] } } :=
      if_pos hcond
    rw [hC1]
    rw [if_neg (fun hcon => Bool.false_ne_true hcon.2.1)]
    dsimp only
    by_cases hvv : lh.id.v = item.id.v
    · rw [if_pos hvv]
    · rw [if_neg hvv]
      rw [if_pos h7]

/-- C7 witness: the new root `c7rootC` is reconnected to the batch
tombstone `c7delB` and to the deleted local head `c7lh`, and is rejected
against the non-deleted `c7rootA`. -/
theorem checkAncestry_root_rule_witness :
    Except.map (fun st => st.allItems) (checkAncestryStep c7stD c7rootC)
      = .ok (c7stD.allItems
          ++ [{ c7rootC with id := { c7rootC.id with pa := [c7delB.id.v] } }]) ∧
    checkAncestryStep c7stN c7rootC = .error "root preceded" ∧
    mergeNewHeadsStep [] ["doc"] false (fun _ _ => MergeOut.conflict)
        (some c7lh) c7rootC
      = .next { c7rootC with id := { c7rootC.id with pa := [c7lh.id.v] } }
        none :=
  checkAncestry_root_rule c7stD c7stN c7rootC c7delB c7rootA rfl rfl rfl rfl
    rfl [] ["doc"] false (fun _ _ => MergeOut.conflict) c7lh (by decide) rfl

/-! ### C8: conflict marking of multiple candidate heads -/

/-- The fold of `_markConflicts` after its first step: every further item
is flagged and appended to the conflicted list. -/
theorem markConflicts_fold (l : List VcItem) (pre flg : List VcItem) :
    l.foldl (fun (acc : List VcItem × List VcItem × Bool) item =>
        if acc.2.2 then (acc.1 ++ [item], acc.2.1, false)
        else (acc.1, acc.2.1
          ++ [{ item with m3 := { item.m3 with c := true } }], false))
      (pre, flg, false)
    = (pre,
       flg ++ l.map (fun it => { it with m3 := { it.m3 with c := true } }),
       false) := by
  induction l generalizing flg with
  | nil => simp
  | cons x xs ih =>
    rw [List.foldl_cons]
    dsimp only
    rw [if_neg (show ¬(false = true) from Bool.false_ne_true)]
    rw [ih]
    simp

/-- C8 (amended) — `_markConflicts` keeps the first head of the candidate
list it is given and flags every later one with `_m3._c = true`, and
`_ensureOneHead` accepts any uniform nonempty candidate list, returning
that first head; the candidate list comes from `_branchHeads`, which orders
the non-deleted heads before the deleted ones, not by arrival. -/
theorem ensureOneHead_marks_all_but_first (first : VcItem) (rest : List VcItem)
    (hu : (first :: rest).all
      (fun it => it.id.pe == first.id.pe && it.id.id == first.id.id) = true)
    (items : List VcItem) (hne : items.isEmpty = false)
    (hb : branchHeads items true false = first :: rest) :
    markConflicts (first :: rest)
      = .ok ([first],
          rest.map (fun it => { it with m3 := { it.m3 with c := true } })) ∧
    ensureOneHead items = .ok [first] := by
  have hmc : markConflicts (first :: rest)
      = .ok ([first],
          rest.map (fun it => { it with m3 := { it.m3 with c := true } })) := by
    unfold markConflicts
    dsimp only
    rw [if_pos hu]
    have key : List.foldl (fun (acc : List VcItem × List VcItem × Bool) item =>
          if acc.2.2 then (acc.1 ++ [item], acc.2.1, false)
          else (acc.1, acc.2.1
            ++ [{ item with m3 := { item.m3 with c := true } }], false))
        ([], [], true) (first :: rest)
        = ([first],
           rest.map (fun it => { it with m3 := { it.m3 with c := true } }),
           false) := by
      rw [List.foldl_cons]
      exact (markConflicts_fold rest [first] []).trans (by simp)
    rw [key]
  refine ⟨hmc, ?_⟩
  unfold ensureOneHead
  rw [if_neg (show ¬items.isEmpty = true from by
    rw [hne]; exact Bool.false_ne_true)]
  dsimp only
  rw [hb, hmc]
  dsimp only
  rw [if_neg (by simp)]

/-- C8 witness: for the candidate list `B`, `C` the first head `B` stays
unflagged, `C` is flagged, and ingestion of the batch accepts `B`. -/
theorem ensureOneHead_marks_all_but_first_witness :
    markConflicts [c8iB, c8iC]
      = .ok ([c8iB],
          [c8iC].map (fun it => { it with m3 := { it.m3 with c := true } })) ∧
    ensureOneHead [c8iA, c8iC, c8iB] = .ok [c8iB] :=
  ensureOneHead_marks_all_but_first c8iB [c8iC] (by decide)
    [c8iA, c8iC, c8iB] rfl rfl

/-- C8 counterexample — in the batch `A`, then the deleted candidate head
`C`, then the head `B` (so `C` precedes `B` in arrival order),
`_branchHeads` lists the non-deleted `B` before the deleted `C`;
`_markConflicts` therefore keeps the later-arrived `B` unflagged and flags
the earlier-arrived `C`: it is not the first candidate head by arrival
order that stays unflagged. -/
theorem branchHeads_arrival_order_counterexample :
    branchHeads [c8iA, c8iC, c8iB] true false = [c8iB, c8iC] ∧
    markConflicts [c8iB, c8iC]
      = .ok ([c8iB], [{ c8iC with m3 := { c8iC.m3 with c := true } }]) ∧
    ensureOneHead [c8iA, c8iC, c8iB] = .ok [c8iB] ∧
    c8iC.id.i < c8iB.id.i :=
  ⟨rfl, rfl, rfl, by decide⟩

/-! ### C5: confirmations of staged merges -/

/-- C5 (amended) — a local write whose version matches a staged item with an
equal body is accepted as a confirmation regardless of stage insertion
order: every staged item of the id up to and including the confirmed
version is promoted into the local tree; `createLocalWriteStream` has no
out-of-order rejection. -/
theorem localWrite_confirm_promotes_prefix (vSize : Nat) (st : MTState)
    (input : LocalIn) (ex : MtItem) (hpa : input.pa = none)
    (hex : treeGetByVersion st.stageTree input.v = some ex)
    (hb : jvalFieldsBeq ex.b input.b = true) (l2 s2 : MtTree)
    (hp : promoteGo st.peTrees ex.h.v
        (treeItemsUpTo st.stageTree ex.h.id ex.h.v) st.localTree st.stageTree
      = .ok (l2, s2)) :
    localWrite vSize st input
      = .ok { st with localTree := l2, stageTree := s2 } := by
  unfold localWrite
  rw [hpa]
  rw [if_neg (show ¬((none : Option (List String)).isSome = true) from
    Bool.false_ne_true)]
  rw [hex]
  dsimp only
  rw [if_pos hb]
  rw [hp]

/-- C5 witness: confirming the staged `V2` of `c5st0` promotes the staged
prefix `V1`, `V2` into the local tree and empties the stage. -/
theorem localWrite_confirm_promotes_prefix_witness :
    localWrite 6 c5st0 c5in
      = .ok { c5st0 with localTree := [c5s1, c5s2], stageTree := [] } :=
  localWrite_confirm_promotes_prefix 6 c5st0 c5in c5s2 rfl rfl rfl
    [c5s1, c5s2] [] rfl

/-- C5 counterexample — with `V1` and `V2` staged in this order, a local
write confirming the later staged version `V2` before `V1` has been
confirmed is not rejected: it succeeds and promotes both staged items; a
subsequent write of `V1` is treated as a new local version and fails with a
tree write error, not an out-of-order-confirmation error. -/
theorem localWrite_out_of_order_counterexample :
    localWrite 6 c5st0 ⟨"doc", "V2", false, [], [], none⟩
      = .ok { c5st0 with localTree := [c5s1, c5s2], stageTree := [] } ∧
    localWrite 6 { c5st0 with localTree := [c5s1, c5s2], stageTree := [] }
      ⟨"doc", "V1", false, [], [], none⟩
      = .error "tree write: version exists with different content" :=
  ⟨rfl, rfl⟩

/-! ### C3: the reader's surrogate parent projection -/

set_option maxRecDepth 100000 in
/-- Behavioural checks of the reader embedding on the scenario DAG: an
empty filter emits every item with its true parents, a filter matching
only C emits C with no parents, and an offset absent from the stream fails
with `offset not found`. -/
theorem reader_scenarios :
    readerEmit rdTree [] (fun it => some it) none
      = .ok [("A", []), ("B", ["A"]), ("C", ["B"]), ("D", ["C"]), ("E", ["B"]),
          ("F", ["E", "C"]), ("G", ["F"])] ∧
    readerEmit rdTree [("baz", JVal.vStr "mux")] (fun it => some it) none
      = .ok [("C", [])] ∧
    readerEmit rdTree [] (fun it => some it) (some "ZZ")
      = .error "offset not found" :=
  ⟨rfl, rfl, rfl⟩

/-- A version walked back to by the reader is the version of a
filter-matching item of the stream. -/
theorem walkBranch_matching (tree : List RdItem) (filter : JsObject)
    (p anc : String)
    (h : walkBranchLastMatch tree filter p = some anc) :
    rdMatchingVersion tree filter anc := by
  unfold walkBranchLastMatch at h
  cases hf : (tree.reverse.filter
      (fun it => (branchAncestors tree p).contains it.v)).find?
      (fun it => matchFilter filter it) with
  | none => rw [hf] at h; exact absurd h (by simp)
  | some it =>
    rw [hf] at h
    simp only [Option.map_some', Option.some_inj] at h
    refine ⟨it, ?_, h, List.find?_some hf⟩
    have hmem := List.mem_of_find?_eq_some hf
    exact List.mem_reverse.mp (List.mem_filter.mp hmem).1

/-- A recorded entry of the heads map names only matching versions. -/
theorem rdEntriesOk_entry (tree : List RdItem) (filter : JsObject)
    (hs : List (String × List String)) (k : String) (e : List String)
    (hg : assocGet hs k = some e) (h : rdEntriesOk tree filter hs) :
    ∀ w ∈ e, rdMatchingVersion tree filter w :=
  fun w hw => h _ (assocGet_some_mem hs k e hg) w hw

/-- The defaulted entry of the heads map names only matching versions. -/
theorem rdEntriesOk_getD (tree : List RdItem) (filter : JsObject)
    (hs : List (String × List String)) (k : String)
    (h : rdEntriesOk tree filter hs) :
    ∀ w ∈ (assocGet hs k).getD [], rdMatchingVersion tree filter w := by
  cases hg : assocGet hs k with
  | none => intro w hw; simp at hw
  | some e =>
    intro w hw
    exact rdEntriesOk_entry tree filter hs k e hg h w (by simpa using hw)

/-- Writing an entry of matching versions preserves the heads
invariant. -/
theorem rdEntriesOk_set (tree : List RdItem) (filter : JsObject)
    (hs : List (String × List String)) (k : String) (v : List String)
    (h : rdEntriesOk tree filter hs)
    (hv : ∀ w ∈ v, rdMatchingVersion tree filter w) :
    rdEntriesOk tree filter (assocSet hs k v) := by
  unfold assocSet
  by_cases hk : assocHas hs k
  · rw [if_pos hk]
    intro p hp
    rw [List.mem_map] at hp
    obtain ⟨q, hq, hqe⟩ := hp
    by_cases hq1 : q.1 = k
    · rw [if_pos (show (q.1 == k) = true by simpa using hq1)] at hqe
      rw [← hqe]
      exact hv
    · rw [if_neg (show ¬(q.1 == k) = true by simpa using hq1)] at hqe
      rw [← hqe]
      exact h q hq
  · rw [if_neg hk]
    intro p hp
    rcases List.mem_append.mp hp with hp1 | hp1
    · exact h p hp1
    · rw [List.mem_singleton] at hp1
      rw [hp1]
      exact hv

/-- Deleting an entry preserves the heads invariant. -/
theorem rdEntriesOk_del (tree : List RdItem) (filter : JsObject)
    (hs : List (String × List String)) (k : String)
    (h : rdEntriesOk tree filter hs) :
    rdEntriesOk tree filter (assocDel hs k) :=
  fun p hp => h p (List.mem_of_mem_filter hp)

/-- The parent fold of `handleData` preserves the heads invariant: every
version it records comes from an existing entry or from a walked-back
matching ancestor. -/
theorem rdFold_entriesOk (tree : List RdItem) (filter : JsObject)
    (v : String) (ps : List String) :
    ∀ (hs : List (String × List String)), rdEntriesOk tree filter hs →
    rdEntriesOk tree filter (ps.foldl (fun hs p =>
      match assocGet hs p with
      | some entry =>
        assocDel (assocSet hs v ((assocGet hs v).getD [] ++ entry)) p
      | none =>
        match walkBranchLastMatch tree filter p with
        | some anc =>
          if ((assocGet hs v).getD []).contains anc then hs
          else assocSet hs v ((assocGet hs v).getD [] ++ [anc])
        | none => hs) hs) := by
  induction ps with
  | nil => intro hs h; exact h
  | cons p ps ih =>
    intro hs h
    rw [List.foldl_cons]
    apply ih
    dsimp only
    cases hg : assocGet hs p with
    | some entry =>
      exact rdEntriesOk_del _ _ _ _
        (rdEntriesOk_set _ _ _ _ _ h (fun w hw =>
          (List.mem_append.mp hw).elim
            (fun h1 => rdEntriesOk_getD tree filter hs v h w h1)
            (fun h2 => rdEntriesOk_entry tree filter hs p entry hg h w h2)))
    | none =>
      cases hw : walkBranchLastMatch tree filter p with
      | some anc =>
        dsimp only
        by_cases hc : ((assocGet hs v).getD []).contains anc = true
        · rw [if_pos hc]
          exact h
        · rw [if_neg hc]
          exact rdEntriesOk_set _ _ _ _ _ h (fun w hwm =>
            (List.mem_append.mp hwm).elim
              (fun h1 => rdEntriesOk_getD tree filter hs v h w h1)
              (fun h2 => by
                rw [List.mem_singleton] at h2
                rw [h2]
                exact walkBranch_matching tree filter p anc hw))
      | none => exact h

/-- One `handleData` step preserves both invariants: the heads bookkeeping
is updated for every item (also items the filter or a hook drops), and an
item is emitted only when it matches the filter and passes the hook, with
its recorded head list as parents. -/
theorem handleData_inv (tree : List RdItem) (filter : JsObject)
    (hook : RdItem → Option RdItem) (offset : String) (maxTries : Nat)
    (st st2 : RdState) (item : RdItem) (hit : item ∈ tree)
    (hh : handleData tree filter hook offset maxTries st item = .ok st2)
    (h1 : rdEntriesOk tree filter st.heads)
    (h2 : rdEmittedOk tree filter hook st.emitted) :
    rdEntriesOk tree filter st2.heads
      ∧ rdEmittedOk tree filter hook st2.emitted := by
  have hH := rdFold_entriesOk tree filter item.v item.pa
    (assocSet st.heads item.v [])
    (rdEntriesOk_set tree filter st.heads item.v [] h1
      (fun w hw => absurd hw (List.not_mem_nil w)))
  unfold handleData at hh
  dsimp only at hh
  split at hh
  · exact Except.noConfusion hh
  · rename_i oR tr heq
    split at hh
    · cases hh
      exact ⟨hH, h2⟩
    · rename_i hnm
      have hm : matchFilter filter item = true := not_not.mp hnm
      split at hh
      · cases hh
        exact ⟨hH, h2⟩
      · rename_i afterItem hk
        cases hh
        constructor
        · exact rdEntriesOk_set _ _ _ _ _ hH (fun w hw => by
            rw [List.mem_singleton] at hw
            rw [hw]
            exact ⟨item, hit, rfl, hm⟩)
        · dsimp only
          by_cases ho : oR = true
          · rw [if_pos ho]
            intro p hp
            rcases List.mem_append.mp hp with hp1 | hp1
            · exact h2 p hp1
            · rw [List.mem_singleton] at hp1
              rw [hp1]
              refine ⟨⟨item, hit, rfl, hm, by rw [hk]; rfl⟩, ?_⟩
              exact fun w hw => rdEntriesOk_getD tree filter _ item.v hH w hw
          · rw [if_neg ho]
            exact h2

/-- The reader loop preserves both invariants over any stream slice drawn
from the tree. -/
theorem readerRun_inv (tree : List RdItem) (filter : JsObject)
    (hook : RdItem → Option RdItem) (offset : String) (maxTries : Nat) :
    ∀ (items : List RdItem) (st st2 : RdState),
    (∀ it ∈ items, it ∈ tree) →
    readerRun tree filter hook offset maxTries items st = .ok st2 →
    rdEntriesOk tree filter st.heads →
    rdEmittedOk tree filter hook st.emitted →
    rdEntriesOk tree filter st2.heads
      ∧ rdEmittedOk tree filter hook st2.emitted := by
  intro items
  induction items with
  | nil =>
    intro st st2 _ hr hA hB
    simp only [readerRun] at hr
    cases hr
    exact ⟨hA, hB⟩
  | cons it rest ih =>
    intro st st2 hsub hr hA hB
    simp only [readerRun] at hr
    cases hd : handleData tree filter hook offset maxTries st it with
    | error e => rw [hd] at hr; exact Except.noConfusion hr
    | ok stm =>
      rw [hd] at hr
      have hinv := handleData_inv tree filter hook offset maxTries st stm it
        (hsub it (List.mem_cons_self it rest)) hd hA hB
      exact ih stm st2 (fun x hx => hsub x (List.mem_cons_of_mem _ hx)) hr
        hinv.1 hinv.2

set_option maxRecDepth 100000 in
/-- C3 (amended) — whatever the reader emits lies in the filtered
projection: every emitted version is a filter-matching, hook-passing item
of the stream, and every version in an emitted (rewritten) parent list is
the version of a filter-matching item — items dropped by the filter or a
hook still update the bookkeeping but are never emitted or referenced.  On
the scenario DAG A{}, B{A}, C{B}, D{C}, E{B}, F{E,C}, G{F}, a filter
matching only A, D, G emits A{}, D{A}, G{A}, and with a hook dropping F
and the offset E the reader emits E{B} and G{E,C}. -/
theorem reader_projection_rule (tree : List RdItem) (filter : JsObject)
    (hook : RdItem → Option RdItem) (offset : Option String)
    (out : List (String × List String))
    (h : readerEmit tree filter hook offset = .ok out) :
    (∀ p ∈ out,
      (∃ it, it ∈ tree ∧ it.v = p.1 ∧ matchFilter filter it = true
        ∧ (hook it).isSome = true) ∧
      (∀ w ∈ p.2, ∃ it, it ∈ tree ∧ it.v = w
        ∧ matchFilter filter it = true)) ∧
    readerEmit rdTree [("baz", JVal.vStr "qux")] (fun it => some it) none
      = .ok [("A", []), ("D", ["A"]), ("G", ["A"])] ∧
    readerEmit rdTree [] (fun it => if it.v = "F" then none else some it)
        (some "E")
      = .ok [("E", ["B"]), ("G", ["E", "C"])] := by
  refine ⟨?_, rfl, rfl⟩
  unfold readerEmit at h
  cases hr : readerRun tree filter hook (offset.getD "") tree.length tree
      ⟨[], [], offset.isNone, 0⟩ with
  | error e => rw [hr] at h; exact Except.noConfusion h
  | ok st =>
    rw [hr] at h
    simp only [Except.map] at h
    have hout : st.emitted = out := by
      injection h
    have hinv := readerRun_inv tree filter hook (offset.getD "") tree.length
      tree ⟨[], [], offset.isNone, 0⟩ st (fun it hx => hx) hr
      (fun p hp => absurd hp (List.not_mem_nil p))
      (fun p hp => absurd hp (List.not_mem_nil p))
    intro p hp
    rw [← hout] at hp
    have hp2 := hinv.2 p hp
    exact ⟨hp2.1, fun w hw => hp2.2 w hw⟩

set_option maxRecDepth 100000 in
/-- C3 witness: the projection property at the concrete scenario run that
emits A{}, D{A}, G{A}. -/
theorem reader_projection_rule_witness :
    (∀ p ∈ [("A", ([] : List String)), ("D", ["A"]), ("G", ["A"])],
      (∃ it, it ∈ rdTree ∧ it.v = p.1
        ∧ matchFilter [("baz", JVal.vStr "qux")] it = true
        ∧ ((fun it => some it) it).isSome = true) ∧
      (∀ w ∈ p.2, ∃ it, it ∈ rdTree ∧ it.v = w
        ∧ matchFilter [("baz", JVal.vStr "qux")] it = true)) ∧
    readerEmit rdTree [("baz", JVal.vStr "qux")] (fun it => some it) none
      = .ok [("A", []), ("D", ["A"]), ("G", ["A"])] ∧
    readerEmit rdTree [] (fun it => if it.v = "F" then none else some it)
        (some "E")
      = .ok [("E", ["B"]), ("G", ["E", "C"])] :=
  reader_projection_rule rdTree [("baz", JVal.vStr "qux")]
    (fun it => some it) none [("A", []), ("D", ["A"]), ("G", ["A"])] rfl

set_option maxRecDepth 100000 in
/-- C3 counterexample — the emitted parent list is not simply "the last
filter-matching ancestors" of the version: the parent-inheritance path of
`handleData` concatenates recorded entries without deduplication (only the
walk-back path deduplicates), so on the diamond A{}, B{A}, C{A}, M{B,C}
with a filter matching only A and M, the reader emits M with the parent
list A, A — the same surrogate ancestor once per converging branch — which
is not a duplicate-free list of ancestors. -/
theorem reader_parent_duplication_counterexample :
    readerEmit c3dupTree [("baz", JVal.vStr "qux")] (fun it => some it) none
      = .ok [("A", []), ("M", ["A", "A"])] ∧
    ¬ (["A", "A"] : List String).Nodup :=
  ⟨rfl, by decide⟩

/-! ### C1: how merge versions are assigned -/

/-- C1 (amended) — content versioning lives in MergeTree: `versionContent`
is the base64 encoding of the first `vSize` bytes of the SHA-256 digest of
the BSON-serialized item, and `_mergeTrees` assigns that content version to
both perspectives of a new merge; the writer pipeline of
VersionedCollection, however, versions its merges through `_ensureVersion`,
whose version is the base64 encoding of six pseudorandom bytes and is
independent of the item's content. -/
theorem merge_version_content_rule (item : MtItem) (vsz : Nat)
    (hvsz : 1 ≤ vsz) (s d : MtItem) (hd : d.h.v = "") (v : String)
    (hvc : versionContent s none = some v) (e : List Nat) (m : VcItem)
    (hm : m.id.v = "") :
    versionContent item (some vsz)
      = some (base64encode ((sha256 (bsonDoc (mtItemToJson item))).take vsz)) ∧
    mergeTreesVersionStep s d
      = some ({ s with h := { s.h with v := v } },
              { d with h := { d.h with v := v } }) ∧
    (vcEnsureVersion e m).id.v = base64encode (e.take 6) := by
  refine ⟨?_, ?_, ?_⟩
  · unfold versionContent versionContentOf
    dsimp only
    rw [if_neg (by omega : ¬vsz = 0), if_neg (by omega : ¬vsz < 1)]
  · unfold mergeTreesVersionStep
    rw [if_pos hd, hvc]
    rfl
  · unfold vcEnsureVersion
    rw [if_pos hm]
    rfl

/-- C1 witness: a six-byte version width derived from an eight-character
parent, the shared content version of a `_mergeTrees` merge, and the
entropy-determined version of `_ensureVersion`. -/
theorem merge_version_content_rule_witness :
    versionContent c1s (some 6)
      = some (base64encode ((sha256 (bsonDoc (mtItemToJson c1s))).take 6)) ∧
    mergeTreesVersionStep c1s c1dm
      = some ({ c1s with h := { c1s.h with v := c1v } },
              { c1dm with h := { c1dm.h with v := c1v } }) ∧
    (vcEnsureVersion [7, 7, 7, 7, 7, 7] c1m0).id.v
      = base64encode ([7, 7, 7, 7, 7, 7].take 6) :=
  merge_version_content_rule c1s 6 (by decide) c1s c1dm rfl c1v rfl
    [7, 7, 7, 7, 7, 7] c1m0 rfl

/-- C1 counterexample — the writer pipeline does not content-hash its
merges: on identical inputs (same local head, same new head, same recursive
merge result) two runs of `_mergeNewHeads` with different pseudorandom
bytes assign different versions to the created merge item, so the assigned
version is not determined by the merged items. -/
theorem mergeNewHeads_version_random_counterexample :
    mergeNewHeadsStep [0, 0, 0, 0, 0, 0] [] false c1mf (some c1lh) c1hd
      = .next c1hd (some { c1m0 with
          id := { c1m0.id with v := "AAAAAAAA" }, m3 := ⟨false, 0, false⟩ }) ∧
    mergeNewHeadsStep [1, 0, 0, 0, 0, 0] [] false c1mf (some c1lh) c1hd
      = .next c1hd (some { c1m0 with
          id := { c1m0.id with v := "AQAAAAAA" }, m3 := ⟨false, 0, false⟩ }) ∧
    ("AAAAAAAA" : String) ≠ "AQAAAAAA" :=
  ⟨rfl, rfl, by decide⟩

end Mastersync

